import Mathlib

/-!
Verification of the grid/graph search toolkit of an Advent-of-Code-2023
repository: cycle projection (Day14), quadratic extrapolation (Day21 part 2),
grid indexing (numpy semantics, Day10/Day16), the region/parity scanline sweep
(Day10 part 2), parity-bounded frontier search (Day21 part 1), and the
constrained shortest-path search (Day17).

Each `def` is a shallow embedding of the corresponding Python code; theorems
settle the claims about them.
-/

namespace Day14

/-- First index of `c` in `l` (Python `list.index`, first occurrence). -/
def listIndex {α : Type} [DecidableEq α] : List α → α → Nat
  | [], _ => 0
  | x :: xs, c => if x = c then 0 else listIndex xs c + 1

/-- The cycle-detection loop of `Day14_Part2` (src/Day14.py lines 229-239),
generic in the step function: record each state, step, and stop as soon as the
current state has been recorded before.  `fuel` bounds the iteration count. -/
def cycleDetect {α : Type} [DecidableEq α] (f : α → α) :
    Nat → List α → α → Option (List α × α)
  | 0, _, _ => none
  | fuel + 1, seen, cur =>
    if cur ∈ seen then some (seen, cur)
    else cycleDetect f fuel (seen ++ [cur]) (f cur)

/-- The projection of `Day14_Part2` (src/Day14.py lines 241-252): once the
repeat is found, `repeat` is the first recorded index of the current state,
`loop_length = cycles - repeat`, and the answer for target step `N` is the
recorded state at index `repeat + (N - repeat) % loop_length`. -/
def cycleProject {α : Type} [DecidableEq α] (f : α → α) (x0 : α)
    (N fuel : Nat) : Option α :=
  match cycleDetect f fuel [] x0 with
  | none => none
  | some (seen, cur) =>
      seen.get? (listIndex seen cur +
        (N - listIndex seen cur) % (seen.length - listIndex seen cur))

theorem listIndex_get {α : Type} [DecidableEq α] (l : List α) (c : α)
    (h : c ∈ l) : listIndex l c < l.length ∧ l.get? (listIndex l c) = some c := by
  induction l with
  | nil => simp at h
  | cons x xs ih =>
    by_cases hx : x = c
    · subst hx
      simp [listIndex]
    · rw [List.mem_cons] at h
      rcases h with h | h
      · exact absurd h.symm hx
      · have := ih h
        simp only [listIndex, if_neg hx]
        exact ⟨by simpa using this.1, by simpa using this.2⟩

theorem cycleDetect_spec {α : Type} [DecidableEq α] (f : α → α) (x0 : α) :
    ∀ (fuel k : Nat) (seen res : List α) (cur final : α),
      seen = (List.range k).map (fun i => f^[i] x0) → cur = f^[k] x0 →
      cycleDetect f fuel seen cur = some (res, final) →
      ∃ L, res = (List.range L).map (fun i => f^[i] x0) ∧
        final = f^[L] x0 ∧ final ∈ res := by
  intro fuel
  induction fuel with
  | zero => intro k seen res cur final _ _ h; simp [cycleDetect] at h
  | succ fuel ih =>
    intro k seen res cur final hseen hcur h
    rw [cycleDetect] at h
    by_cases hmem : cur ∈ seen
    · rw [if_pos hmem] at h
      refine ⟨k, ?_, ?_, ?_⟩
      · have := h; injection this with h1; injection h1 with h1 h2; rw [← h1, hseen]
      · have := h; injection this with h1; injection h1 with h1 h2; rw [← h2, hcur]
      · have := h; injection this with h1; injection h1 with h1 h2
        rw [← h1, ← h2]; exact hmem
    · rw [if_neg hmem] at h
      refine ih (k + 1) (seen ++ [cur]) res (f cur) final ?_ ?_ h
      · rw [hseen, hcur, List.range_succ, List.map_append]; rfl
      · rw [hcur]; exact (Function.iterate_succ_apply' f k x0).symm

theorem orbit_period {α : Type} (f : α → α) (x0 : α) (j p : Nat)
    (hper : f^[j + p] x0 = f^[j] x0) :
    ∀ m, j ≤ m → f^[m + p] x0 = f^[m] x0 := by
  intro m hm
  obtain ⟨k, rfl⟩ := Nat.exists_eq_add_of_le hm
  have h1 : j + k + p = k + (j + p) := by omega
  have h2 : j + k = k + j := by omega
  rw [h1, Function.iterate_add_apply, hper, h2, Function.iterate_add_apply]

theorem orbit_period_mul {α : Type} (f : α → α) (x0 : α) (j p : Nat)
    (hper : f^[j + p] x0 = f^[j] x0) :
    ∀ (t m : Nat), j ≤ m → f^[m + t * p] x0 = f^[m] x0 := by
  intro t
  induction t with
  | zero => intro m _; simp
  | succ t ih =>
    intro m hm
    have h1 : m + (t + 1) * p = (m + t * p) + p := by ring
    rw [h1, orbit_period f x0 j p hper (m + t * p) (by omega), ih m hm]

theorem orbit_mod {α : Type} (f : α → α) (x0 : α) (j p : Nat)
    (hper : f^[j + p] x0 = f^[j] x0) :
    ∀ N, j ≤ N → f^[N] x0 = f^[j + (N - j) % p] x0 := by
  intro N hN
  obtain ⟨k, rfl⟩ := Nat.exists_eq_add_of_le hN
  have hk : (j + k - j) = k := by omega
  rw [hk]
  conv_lhs => rw [show j + k = (j + k % p) + (k / p) * p by
    conv_lhs => rw [← Nat.mod_add_div k p]
    ring]
  exact orbit_period_mul f x0 j p hper (k / p) (j + k % p) (by omega)

theorem cycleProject_correct {α : Type} [DecidableEq α] (f : α → α) (x0 : α)
    (N fuel : Nat) (seen : List α) (cur : α)
    (hdet : cycleDetect f fuel [] x0 = some (seen, cur))
    (hN : listIndex seen cur ≤ N) :
    cycleProject f x0 N fuel = some (f^[N] x0) := by
  obtain ⟨L, hres, hfin, hmem⟩ :=
    cycleDetect_spec f x0 fuel 0 [] seen x0 cur (by simp) (by simp) hdet
  obtain ⟨hlt, hget⟩ := listIndex_get seen cur hmem
  set j := listIndex seen cur with hj
  have hlen : seen.length = L := by rw [hres]; simp
  have hjL : j < L := by rw [← hlen]; exact hlt
  -- the recorded state at index j is the j-th orbit element
  have horbj : f^[j] x0 = cur := by
    rw [hres] at hget
    rw [List.get?_map, List.get?_range (by omega)] at hget
    simpa using hget
  have hper : f^[j + (L - j)] x0 = f^[j] x0 := by
    rw [show j + (L - j) = L by omega, horbj, hfin]
  have hp : 0 < L - j := by omega
  have hidx : j + (N - j) % (L - j) < L := by
    have := Nat.mod_lt (N - j) hp
    omega
  have hmain : cycleProject f x0 N fuel =
      seen.get? (j + (N - j) % (seen.length - j)) := by
    simp only [cycleProject, hdet]
  rw [hmain, hlen, hres, List.get?_map, List.get?_range hidx]
  have := orbit_mod f x0 j (L - j) hper N hN
  simp [← this]

/-- C2: the exact-state cycle projection records each visited state until the
current state is already recorded, takes `offset` as the first recorded index
of that state and `period = current step - offset`, and answers target step `N`
with the recorded state at index `offset + (N - offset) % period`, which is the
true simulated state at step `N`; in particular for a machine satisfying
`f^[O + P] x0 = f^[O] x0` the projection at step `O + 7P + 3` is the simulated
state at step `O + 3`. -/
theorem c2_cycle_projection {α : Type} [DecidableEq α] (f : α → α) (x0 : α)
    (N fuel : Nat) (seen : List α) (cur : α)
    (hdet : cycleDetect f fuel [] x0 = some (seen, cur))
    (hN : listIndex seen cur ≤ N)
    (O P : Nat) (hper : f^[O + P] x0 = f^[O] x0)
    (hO : listIndex seen cur ≤ O + 7 * P + 3) :
    cycleProject f x0 N fuel = some (f^[N] x0) ∧
    cycleProject f x0 (O + 7 * P + 3) fuel = some (f^[O + 3] x0) := by
  refine ⟨cycleProject_correct f x0 N fuel seen cur hdet hN, ?_⟩
  rw [cycleProject_correct f x0 (O + 7 * P + 3) fuel seen cur hdet hO]
  have : f^[O + 7 * P + 3] x0 = f^[O + 3] x0 := by
    have := orbit_period_mul f x0 O P hper 7 (O + 3) (by omega)
    rw [show O + 7 * P + 3 = O + 3 + 7 * P by ring, this]
  rw [this]

/-- Witness for C2: a concrete machine with offset 3 and period 4. -/
theorem c2_cycle_projection_witness :
    cycleProject (fun x => if x < 6 then x + 1 else 3) 0 5 10 =
      some ((fun x => if x < 6 then x + 1 else 3)^[5] 0) ∧
    cycleProject (fun x => if x < 6 then x + 1 else 3) 0 (3 + 7 * 4 + 3) 10 =
      some ((fun x => if x < 6 then x + 1 else 3)^[3 + 3] 0) :=
  c2_cycle_projection (fun x => if x < 6 then x + 1 else 3) 0 5 10
    [0, 1, 2, 3, 4, 5, 6] 3 (by decide) (by decide) 3 4 (by decide) (by decide)

end Day14

namespace Day21

/-- Successive differences of a list (src/Day21.py line 192:
`[mod_f[i+1] - mod_f[i] for i in range(len(mod_f)-1)]`; the same expression is
used for the differences of `linear`). -/
def diffs (l : List Int) : List Int :=
  (List.range (l.length - 1)).map (fun i => l.getD (i + 1) 0 - l.getD i 0)

/-- Failure of the quadratic-growth assumption (a Python `assert` in the
source). -/
inductive FitErr
  | assumptionViolated
deriving DecidableEq

/-- The quadratic-fit extrapolation of `Day21_Part2` (src/Day21.py lines
190-216), generic in the sample list as the source expressions are: second
differences are collected into a set which must be a singleton (first
`assert`), `a` is half that element (floor division), the residual after
subtracting `a*i^2` must have constant first difference (second `assert`),
and the value `a*n^2 + b*n + c` is returned. -/
def fitQuadratic (mod_f : List Int) (n : Int) : Except FitErr Int :=
  let diff2 := (diffs (diffs mod_f)).dedup
  if diff2.length = 1 then
    let a := Int.fdiv (diff2.headD 0) 2
    let squares := (List.range mod_f.length).map (fun i => a * (i : Int) ^ 2)
    let linear := List.zipWith (fun x y => x - y) mod_f squares
    let dl := (diffs linear).dedup
    if dl.length = 1 then
      Except.ok (a * n ^ 2 + dl.headD 0 * n + mod_f.headD 0)
    else Except.error FitErr.assumptionViolated
  else Except.error FitErr.assumptionViolated

theorem dedup_length_one_all_eq {l : List Int}
    (h : l.dedup.length = 1) : ∀ x ∈ l, ∀ y ∈ l, x = y := by
  obtain ⟨a, ha⟩ := List.length_eq_one.mp h
  intro x hx y hy
  have hx' : x ∈ l.dedup := List.mem_dedup.mpr hx
  have hy' : y ∈ l.dedup := List.mem_dedup.mpr hy
  rw [ha] at hx' hy'
  simp at hx' hy'
  rw [hx', hy']

/-- C4: in the polynomial variant of cycle projection, if the second
difference of the samples of the monitored scalar is not constant, the routine
fails with the `AssumptionViolated` condition (the `assert len(diff2) == 1`)
instead of returning an extrapolated value, and it returns a value only when
that constancy check passes. -/
theorem c4_quadratic_constancy_check (mod_f : List Int) (n : Int) :
    ((∃ x ∈ diffs (diffs mod_f), ∃ y ∈ diffs (diffs mod_f), x ≠ y) →
      fitQuadratic mod_f n = Except.error FitErr.assumptionViolated) ∧
    (∀ v, fitQuadratic mod_f n = Except.ok v →
      ∀ x ∈ diffs (diffs mod_f), ∀ y ∈ diffs (diffs mod_f), x = y) := by
  constructor
  · rintro ⟨x, hx, y, hy, hxy⟩
    have hlen : (diffs (diffs mod_f)).dedup.length ≠ 1 := by
      intro h
      exact hxy (dedup_length_one_all_eq h x hx y hy)
    unfold fitQuadratic
    rw [if_neg hlen]
  · intro v hv
    by_cases hlen : (diffs (diffs mod_f)).dedup.length = 1
    · exact dedup_length_one_all_eq hlen
    · unfold fitQuadratic at hv
      rw [if_neg hlen] at hv
      exact absurd hv (by simp)

/-- Witness for C4: four samples whose second difference is not constant make
the routine fail with `AssumptionViolated`. -/
theorem c4_quadratic_constancy_check_witness :
    (∃ x ∈ diffs (diffs [(0 : Int), 0, 0, 1]),
      ∃ y ∈ diffs (diffs [(0 : Int), 0, 0, 1]), x ≠ y) ∧
    fitQuadratic [(0 : Int), 0, 0, 1] 5 =
      Except.error FitErr.assumptionViolated :=
  ⟨by decide, (c4_quadratic_constancy_check [(0 : Int), 0, 0, 1] 5).1 (by decide)⟩

end Day21

namespace Grids

/-- Effective index on one axis of a numpy array of length `n`: indices in
`[0, n)` are used directly, indices in `[-n, 0)` wrap around, anything else is
an IndexError. -/
def axisIdx (n : Nat) (i : Int) : Option Nat :=
  if 0 ≤ i ∧ i < (n : Int) then some i.toNat
  else if -(n : Int) ≤ i ∧ i < 0 then some ((n : Int) + i).toNat
  else none

/-- Cell query `grid[pos]` on the 2-D numpy arrays used by Day10/Day16/Day17
(e.g. src/Day10.py line 108, src/Day17.py line 134): each axis is indexed with
numpy semantics. -/
def gridAt {α : Type} (g : List (List α)) (p : Int × Int) : Option α :=
  match axisIdx g.length p.1 with
  | none => none
  | some r =>
    match g.get? r with
    | none => none
    | some row =>
      match axisIdx row.length p.2 with
      | none => none
      | some c => row.get? c

theorem axisIdx_none_iff (n : Nat) (i : Int) :
    axisIdx n i = none ↔ ¬(-(n : Int) ≤ i ∧ i < (n : Int)) := by
  unfold axisIdx
  split_ifs with h1 h2 <;> simp <;> omega

theorem axisIdx_some_lt (n : Nat) (i : Int) (r : Nat)
    (h : axisIdx n i = some r) : r < n := by
  unfold axisIdx at h
  split_ifs at h with h1 h2 <;> injection h with h' <;> omega

/-- C8 counterexample: the query at `(-1, 0)` — a position with a negative row
coordinate, outside the grid extents — returns a cell value (the last row
wraps around) instead of failing. -/
theorem c8_counterexample :
    ¬ (0 ≤ (-1 : Int)) ∧ gridAt [[(1 : Nat), 2], [3, 4]] (-1, 0) = some 3 := by
  decide

/-- C8 amended: a cell query fails exactly when some coordinate is outside
`[-len, len)` for its axis; positions whose negative coordinates lie in
`[-len, -1]` wrap around and return a cell value instead of failing. -/
theorem c8_out_of_range_fails {α : Type} (g : List (List α)) (C : Nat)
    (hrect : ∀ r ∈ g, r.length = C) (p : Int × Int) :
    gridAt g p = none ↔
      ¬(-(g.length : Int) ≤ p.1 ∧ p.1 < (g.length : Int) ∧
        -(C : Int) ≤ p.2 ∧ p.2 < (C : Int)) := by
  cases h1 : axisIdx g.length p.1 with
  | none =>
    have h1' := (axisIdx_none_iff g.length p.1).mp h1
    simp only [gridAt, h1]
    constructor
    · intro _ h; exact h1' ⟨h.1, h.2.1⟩
    · intro _; trivial
  | some r =>
    have hr : r < g.length := axisIdx_some_lt _ _ _ h1
    have h1' : -(g.length : Int) ≤ p.1 ∧ p.1 < (g.length : Int) := by
      by_contra hcon
      have := (axisIdx_none_iff g.length p.1).mpr hcon
      rw [h1] at this
      exact Option.noConfusion this
    obtain ⟨row, hrow⟩ : ∃ row, g.get? r = some row := by
      rw [List.get?_eq_get hr]; exact ⟨_, rfl⟩
    have hlen : row.length = C := hrect row (List.get?_mem hrow)
    cases h2 : axisIdx row.length p.2 with
    | none =>
      have h2' := (axisIdx_none_iff row.length p.2).mp h2
      rw [hlen] at h2'
      simp only [gridAt, h1, hrow, h2]
      constructor
      · intro _ h; exact h2' ⟨h.2.2.1, h.2.2.2⟩
      · intro _; trivial
    | some c =>
      have hc : c < row.length := axisIdx_some_lt _ _ _ h2
      have h2' : -(C : Int) ≤ p.2 ∧ p.2 < (C : Int) := by
        by_contra hcon
        have := (axisIdx_none_iff row.length p.2).mpr (by rw [hlen]; exact hcon)
        rw [h2] at this
        exact Option.noConfusion this
      simp only [gridAt, h1, hrow, h2, List.get?_eq_get hc]
      constructor
      · intro h; exact Option.noConfusion h
      · intro h; exact absurd ⟨h1'.1, h1'.2, h2'.1, h2'.2⟩ h

/-- Witness for the amended C8 theorem on a concrete grid and off-grid
position. -/
theorem c8_out_of_range_fails_witness :
    gridAt [[(1 : Nat), 2], [3, 4]] (5, 0) = none :=
  (c8_out_of_range_fails [[(1 : Nat), 2], [3, 4]] 2 (by decide) (5, 0)).mpr
    (by decide)

end Grids

namespace Day10

/-- State of the scanline sweep of `Day10_Part2` (src/Day10.py lines 209-214):
inside/outside toggle (0 or 1), the entry type of the most recent unresolved
corner on the current row (0, 1 or -1), and the enclosed-tile count. -/
structure SweepSt where
  inside : Nat
  row_type : Int
  count : Nat
deriving DecidableEq

/-- One cell of the scanline sweep of `Day10_Part2` (src/Day10.py lines
216-260): loop tiles were replaced by box-drawing characters, so a tile in
`{'.', '|', '-', 'L', '7', 'J', 'F'}` is not part of the loop and is counted
when inside; `'│'` toggles; corners resolve in pairs via `row_type`. -/
def sweepCell (s : SweepSt) (c : Char) : SweepSt :=
  if (c = '.' ∨ c = '|' ∨ c = '-' ∨ c = 'L' ∨ c = '7' ∨ c = 'J' ∨ c = 'F') ∧
      s.inside ≠ 0 then
    { s with count := s.count + 1 }
  else if c = '│' then
    { s with inside := (s.inside + 1) % 2 }
  else if c = '┌' ∨ c = '┐' ∨ c = '└' ∨ c = '┘' then
    if c = '┌' then { s with row_type := -1 }
    else if c = '└' then { s with row_type := 1 }
    else if c = '┐' then
      if s.row_type = 1 then
        { inside := (s.inside + 1) % 2, row_type := 0, count := s.count }
      else { s with row_type := 0 }
    else
      if s.row_type = -1 then
        { inside := (s.inside + 1) % 2, row_type := 0, count := s.count }
      else { s with row_type := 0 }
  else s

/-- One row of the sweep (src/Day10.py lines 218-260). -/
def sweepRow (s : SweepSt) (row : List Char) : SweepSt :=
  row.foldl sweepCell s

/-- The whole sweep: row-major scan of the grid, the state carried across rows
(src/Day10.py lines 216-263), returning the enclosed-tile count. -/
def sweep (g : List (List Char)) : Nat :=
  (g.foldl sweepRow { inside := 0, row_type := 0, count := 0 }).count

/-- A row of empty ground. -/
def dotRow (n : Nat) : List Char := List.replicate n '.'

/-- The marked rows of a `w × h` rectangular loop (as `Day10_Part2` marks the
loop with box-drawing characters before sweeping). -/
def ringRows (w h : Nat) : List (List Char) :=
  ('┌' :: List.replicate (w - 2) '─' ++ ['┐']) ::
    (List.replicate (h - 2) ('│' :: List.replicate (w - 2) '.' ++ ['│']) ++
      [('└' :: List.replicate (w - 2) '─' ++ ['┘'])])

/-- A grid containing a single simple rectangular `w × h` loop boundary with
no internal obstacles, placed with the given padding of empty ground on each
side. -/
def ringGrid (w h pL pR pT pB : Nat) : List (List Char) :=
  List.replicate pT (dotRow (pL + w + pR)) ++
    (ringRows w h).map (fun r => dotRow pL ++ r ++ dotRow pR) ++
    List.replicate pB (dotRow (pL + w + pR))

theorem sweepCell_dot (rt : Int) (c : Nat) :
    sweepCell ⟨0, rt, c⟩ '.' = ⟨0, rt, c⟩ := by
  simp [sweepCell]

theorem sweepCell_dot_inside (rt : Int) (c : Nat) :
    sweepCell ⟨1, rt, c⟩ '.' = ⟨1, rt, c + 1⟩ := by
  simp [sweepCell]

theorem sweepCell_dash (s : SweepSt) : sweepCell s '─' = s := by
  simp [sweepCell]

theorem sweepCell_vert_out (rt : Int) (c : Nat) :
    sweepCell ⟨0, rt, c⟩ '│' = ⟨1, rt, c⟩ := by
  simp [sweepCell]

theorem sweepCell_vert_in (rt : Int) (c : Nat) :
    sweepCell ⟨1, rt, c⟩ '│' = ⟨0, rt, c⟩ := by
  simp [sweepCell]

theorem sweepCell_se (i : Nat) (rt : Int) (c : Nat) :
    sweepCell ⟨i, rt, c⟩ '┌' = ⟨i, -1, c⟩ := by
  simp [sweepCell]

theorem sweepCell_ne (i : Nat) (rt : Int) (c : Nat) :
    sweepCell ⟨i, rt, c⟩ '└' = ⟨i, 1, c⟩ := by
  simp [sweepCell]

theorem sweepCell_sw_noflip (i : Nat) (c : Nat) :
    sweepCell ⟨i, -1, c⟩ '┐' = ⟨i, 0, c⟩ := by
  simp [sweepCell]

theorem sweepCell_nw_noflip (i : Nat) (c : Nat) :
    sweepCell ⟨i, 1, c⟩ '┘' = ⟨i, 0, c⟩ := by
  simp [sweepCell]

theorem foldl_dots_outside (k : Nat) :
    ∀ rt c, (dotRow k).foldl sweepCell ⟨0, rt, c⟩ = ⟨0, rt, c⟩ := by
  induction k with
  | zero => intro rt c; rfl
  | succ k ih =>
    intro rt c
    show (('.' :: dotRow k).foldl sweepCell ⟨0, rt, c⟩) = _
    rw [List.foldl_cons, sweepCell_dot, ih]

theorem foldl_dots_inside (k : Nat) :
    ∀ rt c, (dotRow k).foldl sweepCell ⟨1, rt, c⟩ = ⟨1, rt, c + k⟩ := by
  induction k with
  | zero => intro rt c; rfl
  | succ k ih =>
    intro rt c
    show (('.' :: dotRow k).foldl sweepCell ⟨1, rt, c⟩) = _
    rw [List.foldl_cons, sweepCell_dot_inside, ih]
    congr 1
    omega

theorem foldl_dashes (k : Nat) (s : SweepSt) :
    (List.replicate k '─').foldl sweepCell s = s := by
  induction k with
  | zero => rfl
  | succ k ih =>
    rw [List.replicate_succ, List.foldl_cons, sweepCell_dash]
    exact ih

theorem foldl_top_open (w : Nat) (c : Nat) :
    List.foldl sweepCell ⟨0, 0, c⟩ ('┌' :: List.replicate (w - 2) '─') =
      ⟨0, -1, c⟩ := by
  rw [List.foldl_cons, sweepCell_se, foldl_dashes]

theorem foldl_mid_open (w : Nat) (c : Nat) :
    List.foldl sweepCell ⟨0, 0, c⟩ ('│' :: List.replicate (w - 2) '.') =
      ⟨1, 0, c + (w - 2)⟩ := by
  rw [List.foldl_cons, sweepCell_vert_out]
  exact foldl_dots_inside (w - 2) 0 c

theorem foldl_bot_open (w : Nat) (c : Nat) :
    List.foldl sweepCell ⟨0, 0, c⟩ ('└' :: List.replicate (w - 2) '─') =
      ⟨0, 1, c⟩ := by
  rw [List.foldl_cons, sweepCell_ne, foldl_dashes]

theorem sweep_top_row (w pL pR : Nat) (c : Nat) :
    sweepRow ⟨0, 0, c⟩ (dotRow pL ++ ('┌' :: List.replicate (w - 2) '─' ++ ['┐'])
      ++ dotRow pR) = ⟨0, 0, c⟩ := by
  unfold sweepRow
  rw [List.foldl_append, List.foldl_append, foldl_dots_outside,
    List.foldl_append, foldl_top_open, List.foldl_cons, sweepCell_sw_noflip,
    List.foldl_nil, foldl_dots_outside]

theorem sweep_mid_row (w pL pR : Nat) (c : Nat) :
    sweepRow ⟨0, 0, c⟩ (dotRow pL ++ ('│' :: List.replicate (w - 2) '.' ++ ['│'])
      ++ dotRow pR) = ⟨0, 0, c + (w - 2)⟩ := by
  unfold sweepRow
  rw [List.foldl_append, List.foldl_append, foldl_dots_outside,
    List.foldl_append, foldl_mid_open, List.foldl_cons, sweepCell_vert_in,
    List.foldl_nil, foldl_dots_outside]

theorem sweep_bot_row (w pL pR : Nat) (c : Nat) :
    sweepRow ⟨0, 0, c⟩ (dotRow pL ++ ('└' :: List.replicate (w - 2) '─' ++ ['┘'])
      ++ dotRow pR) = ⟨0, 0, c⟩ := by
  unfold sweepRow
  rw [List.foldl_append, List.foldl_append, foldl_dots_outside,
    List.foldl_append, foldl_bot_open, List.foldl_cons, sweepCell_nw_noflip,
    List.foldl_nil, foldl_dots_outside]

theorem sweep_dot_rows (k n : Nat) :
    ∀ c, (List.replicate k (dotRow n)).foldl sweepRow ⟨0, 0, c⟩ = ⟨0, 0, c⟩ := by
  induction k with
  | zero => intro c; rfl
  | succ k ih =>
    intro c
    rw [List.replicate_succ, List.foldl_cons,
      show sweepRow ⟨0, 0, c⟩ (dotRow n) = ⟨0, 0, c⟩ from foldl_dots_outside n 0 c]
    exact ih c

theorem sweep_mid_rows (w pL pR : Nat) (k : Nat) :
    ∀ c, (List.replicate k (dotRow pL ++ ('│' :: List.replicate (w - 2) '.' ++ ['│'])
      ++ dotRow pR)).foldl sweepRow ⟨0, 0, c⟩ = ⟨0, 0, c + k * (w - 2)⟩ := by
  induction k with
  | zero => intro c; simp
  | succ k ih =>
    intro c
    rw [List.replicate_succ, List.foldl_cons, sweep_mid_row, ih]
    congr 1
    ring

/-- C5: for every grid containing a single simple rectangular `w × h` loop
boundary with no internal obstacles (any padding of empty ground around it),
the region/parity scanline sweep reports exactly `(w-2)*(h-2)` enclosed
non-boundary cells. -/
theorem c5_ring_enclosed_count (w h pL pR pT pB : Nat) (hw : 2 ≤ w) (hh : 2 ≤ h) :
    sweep (ringGrid w h pL pR pT pB) = (w - 2) * (h - 2) := by
  clear hw hh
  unfold sweep ringGrid ringRows
  rw [List.foldl_append, List.foldl_append, sweep_dot_rows, List.map_cons,
    List.foldl_cons, sweep_top_row, List.map_append, List.foldl_append,
    List.map_replicate, sweep_mid_rows, List.map_singleton, List.foldl_cons,
    sweep_bot_row, List.foldl_nil, sweep_dot_rows]
  show 0 + (h - 2) * (w - 2) = (w - 2) * (h - 2)
  ring

/-- Witness for C5: the 5×5 grid with a 3×3 ring encloses exactly 1 cell. -/
theorem c5_ring_enclosed_count_witness :
    sweep (ringGrid 3 3 1 1 1 1) = 1 := by
  have := c5_ring_enclosed_count 3 3 1 1 1 1 (by decide) (by decide)
  simpa using this

end Day10

namespace Day21

/-- Garden positions, as the `(r, c)` integer pairs of src/Day21.py. -/
abbrev Pos := Int × Int

/-- The four orthogonal directions (src/Day21.py line 62). -/
def DIRECTIONS : List Pos := [(1, 0), (0, 1), (-1, 0), (0, -1)]

/-- Bounds check of src/Day21.py line 101:
`0 <= new_pos[0] < bounds[0] and 0 <= new_pos[1] < bounds[1]`. -/
def inB (bounds : Nat × Nat) (p : Pos) : Prop :=
  0 ≤ p.1 ∧ p.1 < (bounds.1 : Int) ∧ 0 ≤ p.2 ∧ p.2 < (bounds.2 : Int)

instance (bounds : Nat × Nat) (p : Pos) : Decidable (inB bounds p) := by
  unfold inB; infer_instance

/-- Neighbours of a position: `(pos[0]+d[0], pos[1]+d[1])` for each direction
(src/Day21.py line 99). -/
def nbrs (q : Pos) : Finset Pos :=
  (DIRECTIONS.map (fun d => (q.1 + d.1, q.2 + d.2))).toFinset

/-- The new frontier of one step of `Day21_Part1` (src/Day21.py lines 94-111):
neighbours of the previous frontier that are in bounds, not rocks, and not
previously reached. -/
def newLast (rocks : Finset Pos) (bounds : Nat × Nat)
    (last all : Finset Pos) : Finset Pos :=
  (last.biUnion nbrs).filter (fun q => inB bounds q ∧ q ∉ rocks ∧ q ∉ all)

/-- One step of `Day21_Part1` on the state
`(reachable, last_reached, all_reached)`; positions discovered on an even step
are added to `reachable` (src/Day21.py lines 93-112). -/
def gstep (rocks : Finset Pos) (bounds : Nat × Nat) (stepIdx : Nat)
    (st : Finset Pos × Finset Pos × Finset Pos) :
    Finset Pos × Finset Pos × Finset Pos :=
  (if stepIdx % 2 = 0 then st.1 ∪ newLast rocks bounds st.2.1 st.2.2 else st.1,
   newLast rocks bounds st.2.1 st.2.2,
   st.2.2 ∪ newLast rocks bounds st.2.1 st.2.2)

/-- The state after `n` steps, starting from the seed in all three sets
(src/Day21.py lines 87-112). -/
def gsim (rocks : Finset Pos) (bounds : Nat × Nat) (seed : Pos) :
    Nat → Finset Pos × Finset Pos × Finset Pos
  | 0 => ({seed}, {seed}, {seed})
  | n + 1 => gstep rocks bounds (n + 1) (gsim rocks bounds seed n)

/-- `Day21_Part1` (src/Day21.py lines 83-117): the number of positions first
discovered on an even-numbered step within the 64-step budget. -/
def Day21_Part1 (rocks : Finset Pos) (pos : Pos) (bounds : Nat × Nat) : Nat :=
  (gsim rocks bounds pos 64).1.card

/-- A walk of exactly `n` steps from the seed, each step moving in one of the
four directions to an in-bounds non-rock position. -/
inductive ReachN (rocks : Finset Pos) (bounds : Nat × Nat) (seed : Pos) :
    Nat → Pos → Prop
  | zero : ReachN rocks bounds seed 0 seed
  | succ {n : Nat} {q : Pos} (d : Pos) (hd : d ∈ DIRECTIONS)
      (hq : ReachN rocks bounds seed n q)
      (hb : inB bounds (q.1 + d.1, q.2 + d.2))
      (hr : (q.1 + d.1, q.2 + d.2) ∉ rocks) :
      ReachN rocks bounds seed (n + 1) (q.1 + d.1, q.2 + d.2)

theorem reach_zero_inv {rocks bounds seed p}
    (h : ReachN rocks bounds seed 0 p) : p = seed := by
  cases h; rfl

theorem reach_succ' {rocks bounds seed} (n : Nat) (q p d : Pos)
    (hd : d ∈ DIRECTIONS) (hq : ReachN rocks bounds seed n q)
    (hp : p = (q.1 + d.1, q.2 + d.2)) (hb : inB bounds p) (hr : p ∉ rocks) :
    ReachN rocks bounds seed (n + 1) p := by
  subst hp; exact ReachN.succ d hd hq hb hr

theorem mem_nbrs (p q : Pos) :
    p ∈ nbrs q ↔ ∃ d ∈ DIRECTIONS, (q.1 + d.1, q.2 + d.2) = p := by
  simp [nbrs]

theorem mem_newLast {rocks bounds last all} (p : Pos) :
    p ∈ newLast rocks bounds last all ↔
      ((∃ q ∈ last, ∃ d ∈ DIRECTIONS, (q.1 + d.1, q.2 + d.2) = p) ∧
        inB bounds p ∧ p ∉ rocks ∧ p ∉ all) := by
  unfold newLast
  rw [Finset.mem_filter, Finset.mem_biUnion]
  constructor
  · rintro ⟨⟨q, hq, hn⟩, h2⟩
    exact ⟨⟨q, hq, (mem_nbrs p q).mp hn⟩, h2⟩
  · rintro ⟨⟨q, hq, hn⟩, h2⟩
    exact ⟨⟨q, hq, (mem_nbrs p q).mpr hn⟩, h2⟩

theorem gsim_spec (rocks : Finset Pos) (bounds : Nat × Nat) (seed : Pos) :
    ∀ n : Nat,
      (∀ p, p ∈ (gsim rocks bounds seed n).2.2 ↔
        ∃ m, m ≤ n ∧ ReachN rocks bounds seed m p) ∧
      (∀ p, p ∈ (gsim rocks bounds seed n).2.1 ↔
        (ReachN rocks bounds seed n p ∧
          ∀ m, m < n → ¬ ReachN rocks bounds seed m p)) ∧
      (∀ p, p ∈ (gsim rocks bounds seed n).1 ↔
        ∃ m, m ≤ n ∧ m % 2 = 0 ∧ ReachN rocks bounds seed m p ∧
          ∀ m', m' < m → ¬ ReachN rocks bounds seed m' p) := by
  intro n
  induction n with
  | zero =>
    refine ⟨fun p => ?_, fun p => ?_, fun p => ?_⟩
    · show p ∈ ({seed} : Finset Pos) ↔ _
      rw [Finset.mem_singleton]
      constructor
      · rintro rfl; exact ⟨0, le_refl 0, ReachN.zero⟩
      · rintro ⟨m, hm, hR⟩
        have : m = 0 := by omega
        subst this
        exact reach_zero_inv hR
    · show p ∈ ({seed} : Finset Pos) ↔ _
      rw [Finset.mem_singleton]
      constructor
      · rintro rfl; exact ⟨ReachN.zero, fun m hm => by omega⟩
      · rintro ⟨hR, _⟩; exact reach_zero_inv hR
    · show p ∈ ({seed} : Finset Pos) ↔ _
      rw [Finset.mem_singleton]
      constructor
      · rintro rfl
        exact ⟨0, le_refl 0, rfl, ReachN.zero, fun m hm => by omega⟩
      · rintro ⟨m, hm, _, hR, _⟩
        have : m = 0 := by omega
        subst this
        exact reach_zero_inv hR
  | succ n ih =>
    obtain ⟨ihAll, ihLast, ihRch⟩ := ih
    have key : ∀ p, p ∈ newLast rocks bounds (gsim rocks bounds seed n).2.1
        (gsim rocks bounds seed n).2.2 ↔
        (ReachN rocks bounds seed (n + 1) p ∧
          ∀ m, m ≤ n → ¬ ReachN rocks bounds seed m p) := by
      intro p
      rw [mem_newLast]
      constructor
      · rintro ⟨⟨q, hq, d, hd, hpd⟩, hb, hr, hall⟩
        obtain ⟨hqR, _⟩ := (ihLast q).mp hq
        refine ⟨reach_succ' n q p d hd hqR hpd.symm hb hr, ?_⟩
        intro m hm hR
        exact hall ((ihAll p).mpr ⟨m, hm, hR⟩)
      · rintro ⟨hR, hmin⟩
        cases hR with
        | succ d hd hq hb hr =>
          rename_i q
          refine ⟨⟨q, (ihLast q).mpr ⟨hq, ?_⟩, d, hd, rfl⟩, hb, hr, ?_⟩
          · intro m hm hRq
            exact hmin (m + 1) (by omega) (ReachN.succ d hd hRq hb hr)
          · intro hall
            obtain ⟨m, hm, hR'⟩ := (ihAll _).mp hall
            exact hmin m hm hR'
    refine ⟨fun p => ?_, fun p => ?_, fun p => ?_⟩
    · show p ∈ (gsim rocks bounds seed n).2.2 ∪ _ ↔ _
      rw [Finset.mem_union]
      constructor
      · rintro (h | h)
        · obtain ⟨m, hm, hR⟩ := (ihAll p).mp h
          exact ⟨m, by omega, hR⟩
        · exact ⟨n + 1, le_refl _, ((key p).mp h).1⟩
      · rintro ⟨m, hm, hR⟩
        by_cases hold : ∃ m', m' ≤ n ∧ ReachN rocks bounds seed m' p
        · exact Or.inl ((ihAll p).mpr hold)
        · refine Or.inr ((key p).mpr ⟨?_, ?_⟩)
          · have hm1 : m = n + 1 := by
              rcases Nat.lt_or_ge m (n + 1) with h' | h'
              · exact absurd ⟨m, by omega, hR⟩ hold
              · omega
            rwa [hm1] at hR
          · intro m' hm' hR'
            exact hold ⟨m', hm', hR'⟩
    · show p ∈ newLast rocks bounds _ _ ↔ _
      rw [key p]
      constructor
      · rintro ⟨h1, h2⟩; exact ⟨h1, fun m hm => h2 m (by omega)⟩
      · rintro ⟨h1, h2⟩; exact ⟨h1, fun m hm => h2 m (by omega)⟩
    · by_cases hpar : (n + 1) % 2 = 0
      · have h1 : (gsim rocks bounds seed (n + 1)).1 =
            (gsim rocks bounds seed n).1 ∪ newLast rocks bounds
              (gsim rocks bounds seed n).2.1 (gsim rocks bounds seed n).2.2 := by
          simp only [gsim, gstep]
          rw [if_pos hpar]
        rw [h1, Finset.mem_union]
        constructor
        · rintro (h | h)
          · obtain ⟨m, hm, hev, hR, hmin⟩ := (ihRch p).mp h
            exact ⟨m, by omega, hev, hR, hmin⟩
          · obtain ⟨hR, hmin⟩ := (key p).mp h
            exact ⟨n + 1, le_refl _, hpar, hR, fun m' hm' => hmin m' (by omega)⟩
        · rintro ⟨m, hm, hev, hR, hmin⟩
          rcases Nat.lt_or_ge m (n + 1) with h' | h'
          · exact Or.inl ((ihRch p).mpr ⟨m, by omega, hev, hR, hmin⟩)
          · have hm1 : m = n + 1 := by omega
            subst hm1
            exact Or.inr ((key p).mpr ⟨hR, fun m' hm' => hmin m' (by omega)⟩)
      · have h1 : (gsim rocks bounds seed (n + 1)).1 =
            (gsim rocks bounds seed n).1 := by
          simp only [gsim, gstep]
          rw [if_neg hpar]
        rw [h1, ihRch p]
        constructor
        · rintro ⟨m, hm, hev, hR, hmin⟩; exact ⟨m, by omega, hev, hR, hmin⟩
        · rintro ⟨m, hm, hev, hR, hmin⟩
          exact ⟨m, by omega, hev, hR, hmin⟩

theorem neg_mem_DIRECTIONS (d : Pos) (hd : d ∈ DIRECTIONS) :
    ((-d.1, -d.2) : Pos) ∈ DIRECTIONS := by
  fin_cases hd <;> decide

theorem reach_valid {rocks bounds seed} (m : Nat) (p : Pos) (h1 : 1 ≤ m)
    (h : ReachN rocks bounds seed m p) : inB bounds p ∧ p ∉ rocks := by
  cases h with
  | zero => omega
  | succ d hd hq hb hr => exact ⟨hb, hr⟩

theorem reach_pad {rocks bounds seed}
    (hseed_in : inB bounds seed) (hseed_rock : seed ∉ rocks)
    (hnbr : ∃ d ∈ DIRECTIONS, inB bounds (seed.1 + d.1, seed.2 + d.2) ∧
      (seed.1 + d.1, seed.2 + d.2) ∉ rocks) :
    ∀ m p, ReachN rocks bounds seed m p → ReachN rocks bounds seed (m + 2) p := by
  intro m p h
  cases h with
  | zero =>
    obtain ⟨d, hd, hb, hr⟩ := hnbr
    have h1 : ReachN rocks bounds seed 1 (seed.1 + d.1, seed.2 + d.2) :=
      ReachN.succ d hd ReachN.zero hb hr
    exact reach_succ' 1 (seed.1 + d.1, seed.2 + d.2) seed (-d.1, -d.2)
      (neg_mem_DIRECTIONS d hd) h1
      (by rw [Prod.ext_iff]; constructor <;> simp)
      hseed_in hseed_rock
  | succ d hd hq hb hr =>
    rename_i m' q
    have hqv : inB bounds q ∧ q ∉ rocks := by
      rcases Nat.eq_zero_or_pos m' with h0 | h0
      · subst h0
        rw [reach_zero_inv hq]
        exact ⟨hseed_in, hseed_rock⟩
      · exact reach_valid m' q h0 hq
    have hback : ReachN rocks bounds seed (m' + 2) q :=
      reach_succ' (m' + 1) (q.1 + d.1, q.2 + d.2) q (-d.1, -d.2)
        (neg_mem_DIRECTIONS d hd) (ReachN.succ d hd hq hb hr)
        (by rw [Prod.ext_iff]; constructor <;> simp)
        hqv.1 hqv.2
    exact ReachN.succ d hd hback hb hr

theorem reach_pad_iter {rocks bounds seed}
    (hseed_in : inB bounds seed) (hseed_rock : seed ∉ rocks)
    (hnbr : ∃ d ∈ DIRECTIONS, inB bounds (seed.1 + d.1, seed.2 + d.2) ∧
      (seed.1 + d.1, seed.2 + d.2) ∉ rocks) :
    ∀ (k m : Nat) (p : Pos), ReachN rocks bounds seed m p →
      ReachN rocks bounds seed (m + 2 * k) p := by
  intro k
  induction k with
  | zero => intro m p h; simpa using h
  | succ k ih =>
    intro m p h
    have := reach_pad hseed_in hseed_rock hnbr (m + 2 * k) p (ih m p h)
    have heq : m + 2 * k + 2 = m + 2 * (k + 1) := by ring
    rwa [heq] at this

theorem reach_parity {rocks bounds seed} :
    ∀ (m : Nat) (p : Pos), ReachN rocks bounds seed m p →
      (p.1 + p.2 + (m : Int)) % 2 = (seed.1 + seed.2) % 2 := by
  intro m p h
  induction h with
  | zero => simp
  | succ d hd hq hb hr ih =>
    fin_cases hd <;> (simp only [] at ih ⊢; push_cast at ih ⊢; omega)

theorem reach_parity_eq {rocks bounds seed} (a b : Nat) (p : Pos)
    (ha : ReachN rocks bounds seed a p) (hb : ReachN rocks bounds seed b p) :
    a % 2 = b % 2 := by
  have h1 := reach_parity a p ha
  have h2 := reach_parity b p hb
  omega

/-- C6 amended: provided the seed is an in-bounds non-rock position with at
least one in-bounds non-rock neighbour, the set of positions counted by
`Day21_Part1` (positions first discovered on an even-numbered step within the
64-step budget, seed included) is exactly the set of positions reachable from
the seed in exactly 64 steps, and the returned count is its cardinality. -/
theorem c6_exactly_64_steps (rocks : Finset Pos) (pos : Pos)
    (bounds : Nat × Nat) (hseed_in : inB bounds pos) (hseed_rock : pos ∉ rocks)
    (hnbr : ∃ d ∈ DIRECTIONS, inB bounds (pos.1 + d.1, pos.2 + d.2) ∧
      (pos.1 + d.1, pos.2 + d.2) ∉ rocks) :
    Day21_Part1 rocks pos bounds = (gsim rocks bounds pos 64).1.card ∧
    ∀ p, p ∈ (gsim rocks bounds pos 64).1 ↔ ReachN rocks bounds pos 64 p := by
  refine ⟨rfl, fun p => ?_⟩
  obtain ⟨_, _, hRch⟩ := gsim_spec rocks bounds pos 64
  rw [hRch p]
  constructor
  · rintro ⟨m, hm, hev, hR, _⟩
    have hpad := reach_pad_iter hseed_in hseed_rock hnbr ((64 - m) / 2) m p hR
    have heq : m + 2 * ((64 - m) / 2) = 64 := by omega
    rwa [heq] at hpad
  · intro hR
    have hex : ∃ m, ReachN rocks bounds pos m p := ⟨64, hR⟩
    have hdec : DecidablePred (fun m => ReachN rocks bounds pos m p) :=
      Classical.decPred _
    refine ⟨Nat.find hex, Nat.find_min' hex hR, ?_, Nat.find_spec hex,
      fun m' hm' => Nat.find_min hex hm'⟩
    have := reach_parity_eq (Nat.find hex) 64 p (Nat.find_spec hex) hR
    omega

/-- Witness for the amended C6 theorem: a 2×2 rock-free garden. -/
theorem c6_exactly_64_steps_witness :
    Day21_Part1 (∅ : Finset Pos) (0, 0) (2, 2) =
      (gsim ∅ (2, 2) (0, 0) 64).1.card ∧
    ∀ p, p ∈ (gsim (∅ : Finset Pos) (2, 2) (0, 0) 64).1 ↔
      ReachN ∅ (2, 2) (0, 0) 64 p :=
  c6_exactly_64_steps ∅ (0, 0) (2, 2) (by decide) (by decide)
    ⟨(1, 0), by decide, by decide, by decide⟩

theorem c6_no_walk_in_closed_garden :
    ∀ (n : Nat) (p : Pos), ¬ ReachN (∅ : Finset Pos) (1, 1) (0, 0) (n + 1) p := by
  intro n
  induction n with
  | zero =>
    intro p h
    cases h with
    | succ d hd hq hb hr =>
      rw [reach_zero_inv hq] at hb
      fin_cases hd <;> exact absurd hb (by decide)
  | succ n ih =>
    intro p h
    cases h with
    | succ d hd hq hb hr =>
      rename_i q
      exact ih q hq

/-- C6 counterexample: on a 1×1 rock-free garden the code's count is 1 (the
seed is always included), but no position at all is reachable in exactly 64
steps, so the count is not the number of positions reachable in exactly 64
steps. -/
theorem c6_counterexample :
    Day21_Part1 (∅ : Finset Pos) (0, 0) (1, 1) = 1 ∧
    ∀ p, ¬ ReachN (∅ : Finset Pos) (1, 1) (0, 0) 64 p := by
  constructor
  · decide
  · intro p
    exact c6_no_walk_in_closed_garden 63 p

end Day21

namespace Day17

/-- Grid positions `(row, col)`. -/
abbrev Pos := Int × Int

/-- Movement directions. -/
abbrev Dir := Int × Int

/-- Search states `(position, last_direction, number_of_straight_moves)`
(src/Day17.py line 99-101). -/
abbrev St := Pos × Dir × Nat

/-- All orthogonal directions (src/Day17.py line 71). -/
def DIRECTIONS : List Dir := [(0, 1), (0, -1), (1, 0), (-1, 0)]

/-- Elementwise tuple addition (src/Day17.py line 41). -/
def add_tuple (a b : Int × Int) : Int × Int := (a.1 + b.1, a.2 + b.2)

/-- A heat-loss map: rows of per-cell costs. -/
abbrev Grid := List (List Nat)

def nRows (g : Grid) : Nat := g.length

def nCols (g : Grid) : Nat := (g.headD []).length

/-- The heat loss of a cell, `grid[pos]` after the bounds check. -/
def weight (g : Grid) (p : Pos) : Nat := (g.getD p.1.toNat []).getD p.2.toNat 0

/-- Negation of the skip condition of src/Day17.py line 123:
`any(p < 0 for p in new_pos) or new_pos[0] >= len(grid) or
new_pos[1] >= len(grid[0])`. -/
def inBounds (g : Grid) (p : Pos) : Prop :=
  0 ≤ p.1 ∧ 0 ≤ p.2 ∧ p.1 < (nRows g : Int) ∧ p.2 < (nCols g : Int)

instance (g : Grid) (p : Pos) : Decidable (inBounds g p) := by
  unfold inBounds; infer_instance

/-- The legal movement directions out of a state (src/Day17.py lines 112-117
with `min_run = 0`, `max_run = 3` for part 1; lines 190-200 with
`min_run = 4`, `max_run = 10` for part 2): while fewer than `min_run` straight
moves, only the last direction; otherwise every direction except the reverse
of the last one, and except the last direction itself once `max_run` straight
moves were made. -/
def possibleDirs (min_run max_run : Nat) (last_dir : Dir) (num_straight : Nat) :
    List Dir :=
  if num_straight < min_run then [last_dir]
  else
    let ds := DIRECTIONS.filter (fun d => d ≠ (-last_dir.1, -last_dir.2))
    if max_run ≤ num_straight then ds.filter (fun d => d ≠ last_dir) else ds

/-- The state reached by one move (src/Day17.py lines 121, 126-133). -/
def nextSt (s : St) (dir : Dir) : St :=
  (add_tuple s.1 dir, dir, if dir = s.2.1 then s.2.2 + 1 else 1)

/-- The cost map `min_heatlosses`, as association pairs. -/
abbrev DictT := List (St × Nat)

/-- The priority queue, entries `(heat_loss, state)`. -/
abbrev QueueT := List (Nat × St)

/-- Dictionary lookup (first match). -/
def dlookup : DictT → St → Option Nat
  | [], _ => none
  | e :: d, s => if e.1 = s then some e.2 else dlookup d s

/-- Creation of a dictionary entry (`min_heatlosses[new_state] = ...` for an
absent key). -/
def dinsert (d : DictT) (s : St) (v : Nat) : DictT := d ++ [(s, v)]

/-- Overwrite of an existing dictionary entry. -/
def dupdate : DictT → St → Nat → DictT
  | [], _, _ => []
  | e :: d, s, v => if e.1 = s then (s, v) :: d else e :: dupdate d s v

/-- Queue order: `heapq` compares the `(heat_loss, state)` tuples
lexicographically, integers componentwise. -/
def entryLe (a b : Nat × St) : Prop :=
  a.1 < b.1 ∨ (a.1 = b.1 ∧ (a.2.1.1 < b.2.1.1 ∨ (a.2.1.1 = b.2.1.1 ∧
    (a.2.1.2 < b.2.1.2 ∨ (a.2.1.2 = b.2.1.2 ∧ (a.2.2.1.1 < b.2.2.1.1 ∨
      (a.2.2.1.1 = b.2.2.1.1 ∧ (a.2.2.1.2 < b.2.2.1.2 ∨ (a.2.2.1.2 = b.2.2.1.2 ∧
        a.2.2.2 ≤ b.2.2.2)))))))))

instance (a b : Nat × St) : Decidable (entryLe a b) := by
  unfold entryLe; infer_instance

/-- The minimum entry of the queue (what `heappop` removes). -/
def findMinEntry : QueueT → Option (Nat × St)
  | [] => none
  | e :: q =>
    match findMinEntry q with
    | none => some e
    | some m => if entryLe e m then some e else some m

/-- Removal of one queue entry. -/
def eraseEntry : QueueT → (Nat × St) → QueueT
  | [], _ => []
  | x :: q, e => if x = e then q else x :: eraseEntry q e

/-- Processing of one direction out of the popped state (src/Day17.py lines
119-139 and 202-222): compute the new position, skip it if out of bounds,
extend or reset the straight-move count, then either create the cost-map entry
and push the new state, or tighten the stored cost when the new path is
cheaper (without re-pushing). -/
def relaxDir (g : Grid) (s : St) (acc : DictT × QueueT) (dir : Dir) :
    DictT × QueueT :=
  if inBounds g (add_tuple s.1 dir) then
    match dlookup acc.1 (nextSt s dir) with
    | none =>
      (dinsert acc.1 (nextSt s dir)
        ((dlookup acc.1 s).getD 0 + weight g (add_tuple s.1 dir)),
       acc.2 ++ [((dlookup acc.1 s).getD 0 + weight g (add_tuple s.1 dir),
         nextSt s dir)])
    | some old =>
      if (dlookup acc.1 s).getD 0 + weight g (add_tuple s.1 dir) < old then
        (dupdate acc.1 (nextSt s dir)
          ((dlookup acc.1 s).getD 0 + weight g (add_tuple s.1 dir)), acc.2)
      else acc
  else acc

/-- Expansion of a popped state over all its legal directions. -/
def expand (g : Grid) (min_run max_run : Nat) (s : St) (dq : DictT × QueueT) :
    DictT × QueueT :=
  (possibleDirs min_run max_run s.2.1 s.2.2).foldl (relaxDir g s) dq

/-- The two initial states: entering the grid rightwards or downwards, zero
straight moves, zero heat loss (src/Day17.py line 102). -/
def startStates : List St := [((0, 0), (0, 1), 0), ((0, 0), (1, 0), 0)]

def initDict : DictT := [(((0, 0), (0, 1), 0), 0), (((0, 0), (1, 0), 0), 0)]

def initQueue : QueueT := [(0, ((0, 0), (0, 1), 0)), (0, ((0, 0), (1, 0), 0))]

/-- The main search loop (src/Day17.py lines 107-139): pop the minimum entry
and expand it while the queue is not empty.  `fuel` bounds the number of
iterations; `none` means the bound was hit before the queue emptied. -/
def searchLoop (g : Grid) (min_run max_run : Nat) :
    Nat → DictT → QueueT → Option DictT
  | 0, d, q => if q.isEmpty then some d else none
  | fuel + 1, d, q =>
    match findMinEntry q with
    | none => some d
    | some e =>
      let dq := expand g min_run max_run e.2 (d, eraseEntry q e)
      searchLoop g min_run max_run fuel dq.1 dq.2

/-- The bottom-right corner `(len(grid)-1, len(grid[0])-1)`. -/
def goalPos (g : Grid) : Pos := ((nRows g : Int) - 1, (nCols g : Int) - 1)

/-- The heat losses of the recorded end states (src/Day17.py lines 142-143 and
226-228; for part 1 `min_run = 0` makes the run-length condition trivial). -/
def goalCosts (g : Grid) (min_run : Nat) (d : DictT) : List Nat :=
  (d.filter (fun e => decide (e.1.1 = goalPos g ∧ min_run ≤ e.1.2.2))).map (·.2)

/-- Python `min`, failing on an empty list. -/
def listMin : List Nat → Option Nat
  | [] => none
  | x :: xs => some (xs.foldl Nat.min x)

/-- The outcome of a search call: `min(possible_heatloss)` raises on an empty
list (no recorded goal state), which the specification calls `NoPathFound`. -/
inductive SearchOutcome where
  | noPathFound
  | found (n : Nat)
deriving DecidableEq

/-- A full constrained-shortest-path call, parameterized by the run
constraints; `none` only when `fuel` is insufficient. -/
def runSearch (g : Grid) (min_run max_run fuel : Nat) : Option SearchOutcome :=
  match searchLoop g min_run max_run fuel initDict initQueue with
  | none => none
  | some d =>
    match listMin (goalCosts g min_run d) with
    | none => some SearchOutcome.noPathFound
    | some m => some (SearchOutcome.found m)

/-- `Day17_Part1` (src/Day17.py lines 73-148): at most 3 straight moves. -/
def Day17_Part1 (g : Grid) (fuel : Nat) : Option SearchOutcome :=
  runSearch g 0 3 fuel

/-- `Day17_Part2` (src/Day17.py lines 151-233): at least 4 straight moves
before turning or stopping, at most 10. -/
def Day17_Part2 (g : Grid) (fuel : Nat) : Option SearchOutcome :=
  runSearch g 4 10 fuel

/-- A concrete path from a start state that obeys the run-length constraints:
`Reaches s c` holds when some legal move sequence ends in state `s` with
accumulated cost `c` (the weight of every entered cell, the start cell's own
weight never counted). -/
inductive Reaches (g : Grid) (min_run max_run : Nat) : St → Nat → Prop
  | start (s0 : St) (h : s0 ∈ startStates) : Reaches g min_run max_run s0 0
  | step {s : St} {c : Nat} (dir : Dir)
      (hdir : dir ∈ possibleDirs min_run max_run s.2.1 s.2.2)
      (hb : inBounds g (add_tuple s.1 dir))
      (hs : Reaches g min_run max_run s c) :
      Reaches g min_run max_run (nextSt s dir) (c + weight g (add_tuple s.1 dir))

end Day17

namespace Day17

/-- A state is in the queue with some priority. -/
def inQueue (q : QueueT) (s : St) : Prop := ∃ k, (k, s) ∈ q

theorem dlookup_mem {d : DictT} {s : St} {v : Nat}
    (h : dlookup d s = some v) : (s, v) ∈ d := by
  induction d with
  | nil => simp [dlookup] at h
  | cons e d ih =>
    rw [dlookup] at h
    by_cases he : e.1 = s
    · rw [if_pos he] at h
      injection h with h
      exact List.mem_cons.mpr (Or.inl (by rw [← he, ← h]))
    · rw [if_neg he] at h
      exact List.mem_cons_of_mem e (ih h)

theorem dlookup_of_mem {d : DictT} {s : St} {v : Nat}
    (hnd : (d.map (·.1)).Nodup) (h : (s, v) ∈ d) : dlookup d s = some v := by
  induction d with
  | nil => simp at h
  | cons e d ih =>
    rw [List.map_cons, List.nodup_cons] at hnd
    rw [List.mem_cons] at h
    rcases h with h | h
    · rw [dlookup, ← h]
      simp
    · rw [dlookup]
      have he : e.1 ≠ s := by
        intro hc
        exact hnd.1 (by rw [hc]; exact List.mem_map_of_mem _ h)
      rw [if_neg he]
      exact ih hnd.2 h

theorem dlookup_none {d : DictT} {s : St}
    (h : dlookup d s = none) : ∀ v, (s, v) ∉ d := by
  induction d with
  | nil => simp
  | cons e d ih =>
    rw [dlookup] at h
    by_cases he : e.1 = s
    · rw [if_pos he] at h; exact absurd h (by simp)
    · rw [if_neg he] at h
      intro v hv
      rw [List.mem_cons] at hv
      rcases hv with hv | hv
      · exact he (by rw [← hv])
      · exact ih h v hv

theorem dlookup_isSome_of_mem {d : DictT} {s : St} {v : Nat}
    (h : (s, v) ∈ d) : dlookup d s ≠ none := by
  intro hn
  exact dlookup_none hn v h

theorem dlookup_append_of_some {d : DictT} {s : St} {v : Nat} (d₂ : DictT)
    (h : dlookup d s = some v) : dlookup (d ++ d₂) s = some v := by
  induction d with
  | nil => simp [dlookup] at h
  | cons e d ih =>
    rw [List.cons_append, dlookup]
    rw [dlookup] at h
    by_cases he : e.1 = s
    · rwa [if_pos he] at h ⊢
    · rw [if_neg he] at h ⊢
      exact ih h

theorem dlookup_dinsert_self {d : DictT} {s : St} (v : Nat)
    (h : dlookup d s = none) : dlookup (dinsert d s v) s = some v := by
  unfold dinsert
  induction d with
  | nil => simp [dlookup]
  | cons e d ih =>
    rw [dlookup] at h
    by_cases he : e.1 = s
    · rw [if_pos he] at h; exact absurd h (by simp)
    · rw [if_neg he] at h
      show dlookup (e :: (d ++ [(s, v)])) s = some v
      rw [dlookup, if_neg he]
      exact ih h

theorem dlookup_dinsert_ne {d : DictT} {s t : St} (v : Nat)
    (h : t ≠ s) : dlookup (dinsert d s v) t = dlookup d t := by
  unfold dinsert
  induction d with
  | nil =>
    show dlookup ((s, v) :: []) t = dlookup [] t
    rw [dlookup, dlookup, if_neg (show ¬((s, v).1 = t) from fun hc => h hc.symm)]
    rfl
  | cons e d ih =>
    show dlookup (e :: (d ++ [(s, v)])) t = _
    rw [dlookup, dlookup]
    by_cases he : e.1 = t
    · rw [if_pos he, if_pos he]
    · rw [if_neg he, if_neg he]
      exact ih

theorem dlookup_dupdate_ne {d : DictT} {s t : St} (v : Nat)
    (h : t ≠ s) : dlookup (dupdate d s v) t = dlookup d t := by
  induction d with
  | nil => rfl
  | cons e d ih =>
    rw [dupdate]
    by_cases he : e.1 = s
    · rw [if_pos he, dlookup, dlookup, if_neg (fun hc => h hc.symm), if_neg]
      rw [he]
      exact fun hc => h hc.symm
    · rw [if_neg he, dlookup, dlookup]
      by_cases het : e.1 = t
      · rw [if_pos het, if_pos het]
      · rw [if_neg het, if_neg het]
        exact ih

theorem mem_dupdate {d : DictT} {s t : St} {v w : Nat}
    (h : (t, w) ∈ dupdate d s v) : (t, w) ∈ d ∨ (t = s ∧ w = v) := by
  induction d with
  | nil => simp [dupdate] at h
  | cons e d ih =>
    rw [dupdate] at h
    by_cases he : e.1 = s
    · rw [if_pos he] at h
      rw [List.mem_cons] at h
      rcases h with h | h
      · right
        exact ⟨congrArg Prod.fst h, congrArg Prod.snd h⟩
      · exact Or.inl (List.mem_cons_of_mem e h)
    · rw [if_neg he] at h
      rw [List.mem_cons] at h
      rcases h with h | h
      · exact Or.inl (by rw [h]; exact List.mem_cons_self e d)
      · rcases ih h with h' | h'
        · exact Or.inl (List.mem_cons_of_mem e h')
        · exact Or.inr h'

theorem mem_dupdate_of_mem {d : DictT} {s t : St} {v w : Nat}
    (h : (t, w) ∈ d) :
    (t, w) ∈ dupdate d s v ∨ (t = s ∧ dlookup d s = some w ∧ (s, v) ∈ dupdate d s v) := by
  induction d with
  | nil => simp at h
  | cons e d ih =>
    rw [List.mem_cons] at h
    rw [dupdate]
    by_cases he : e.1 = s
    · rw [if_pos he]
      rcases h with h | h
      · by_cases hts : (t, w) = (s, v)
        · exact Or.inl (by rw [hts]; exact List.mem_cons_self _ _)
        · right
          have ht : t = s := by rw [← he, ← h]
          refine ⟨ht, ?_, List.mem_cons_self _ _⟩
          rw [dlookup, if_pos he, ← h]
      · exact Or.inl (List.mem_cons_of_mem _ h)
    · rw [if_neg he]
      rcases h with h | h
      · exact Or.inl (by rw [h]; exact List.mem_cons_self _ _)
      · rcases ih h with h' | h'
        · exact Or.inl (List.mem_cons_of_mem _ h')
        · right
          refine ⟨h'.1, ?_, List.mem_cons_of_mem _ h'.2.2⟩
          rw [dlookup, if_neg (by rw [← h'.1]; exact fun hc => he (hc.trans h'.1))]
          exact h'.2.1

theorem keys_dupdate (d : DictT) (s : St) (v : Nat) :
    (dupdate d s v).map (·.1) = d.map (·.1) := by
  induction d with
  | nil => rfl
  | cons e d ih =>
    rw [dupdate]
    by_cases he : e.1 = s
    · rw [if_pos he]
      simp [he]
    · rw [if_neg he]
      simp [ih]

theorem nextSt_ne (s : St) (dir : Dir) : nextSt s dir ≠ s := by
  unfold nextSt
  intro h
  by_cases hd : dir = s.2.1
  · rw [if_pos hd] at h
    have := congrArg (fun t : St => t.2.2) h
    simp at this
  · rw [if_neg hd] at h
    have := congrArg (fun t : St => t.2.1) h
    simp at this
    exact hd this

theorem entryLe_refl (a : Nat × St) : entryLe a a := by
  unfold entryLe; omega

theorem entryLe_trans {a b c : Nat × St} (h1 : entryLe a b) (h2 : entryLe b c) :
    entryLe a c := by
  unfold entryLe at h1 h2 ⊢; omega

theorem entryLe_total (a b : Nat × St) : entryLe a b ∨ entryLe b a := by
  unfold entryLe; omega

theorem entryLe_key {a b : Nat × St} (h : entryLe a b) : a.1 ≤ b.1 := by
  unfold entryLe at h; omega

theorem findMinEntry_cons (e : Nat × St) (q : QueueT) :
    findMinEntry (e :: q) =
      match findMinEntry q with
      | none => some e
      | some m => if entryLe e m then some e else some m := rfl

theorem findMinEntry_none {q : QueueT} (h : findMinEntry q = none) : q = [] := by
  cases q with
  | nil => rfl
  | cons e q =>
    rw [findMinEntry_cons] at h
    rcases hm : findMinEntry q with _ | m
    · simp only [hm] at h
      exact absurd h (by simp)
    · simp only [hm] at h
      by_cases hle : entryLe e m <;> simp [hle] at h

theorem findMinEntry_mem {q : QueueT} {m : Nat × St}
    (h : findMinEntry q = some m) : m ∈ q := by
  induction q generalizing m with
  | nil => simp [findMinEntry] at h
  | cons e q ih =>
    rw [findMinEntry_cons] at h
    rcases hm : findMinEntry q with _ | m' <;> simp only [hm] at h
    · injection h with h
      rw [← h]
      exact List.mem_cons_self _ _
    · by_cases hle : entryLe e m'
      · rw [if_pos hle] at h
        injection h with h
        rw [← h]
        exact List.mem_cons_self _ _
      · rw [if_neg hle] at h
        injection h with h
        exact List.mem_cons_of_mem e (ih (by rw [hm, h]))

theorem findMinEntry_min {q : QueueT} {m : Nat × St}
    (h : findMinEntry q = some m) : ∀ e ∈ q, entryLe m e := by
  induction q generalizing m with
  | nil => simp [findMinEntry] at h
  | cons e q ih =>
    rw [findMinEntry_cons] at h
    rcases hm : findMinEntry q with _ | m' <;> simp only [hm] at h
    · injection h with h
      rw [findMinEntry_none hm, ← h]
      intro x hx
      rw [List.mem_singleton] at hx
      rw [hx]
      exact entryLe_refl e
    · intro x hx
      rw [List.mem_cons] at hx
      by_cases hle : entryLe e m'
      · rw [if_pos hle] at h
        injection h with h
        rcases hx with hx | hx
        · rw [← h, hx]; exact entryLe_refl e
        · rw [← h]; exact entryLe_trans hle (ih hm x hx)
      · rw [if_neg hle] at h
        injection h with h
        rcases hx with hx | hx
        · rw [← h, hx]
          rcases entryLe_total e m' with ht | ht
          · exact absurd ht hle
          · exact ht
        · rw [← h]
          exact ih hm x hx

theorem eraseEntry_sublist (q : QueueT) (e : Nat × St) :
    (eraseEntry q e).Sublist q := by
  induction q with
  | nil => exact List.Sublist.refl []
  | cons x q ih =>
    rw [eraseEntry]
    by_cases hx : x = e
    · rw [if_pos hx]
      exact (List.Sublist.refl q).cons x
    · rw [if_neg hx]
      exact List.Sublist.cons₂ x ih

theorem mem_eraseEntry_of_ne {q : QueueT} {x e : Nat × St}
    (hmem : x ∈ q) (hne : x ≠ e) : x ∈ eraseEntry q e := by
  induction q with
  | nil => simp at hmem
  | cons y q ih =>
    rw [List.mem_cons] at hmem
    rw [eraseEntry]
    by_cases hy : y = e
    · rw [if_pos hy]
      rcases hmem with h | h
      · exact absurd (h.trans hy) hne
      · exact h
    · rw [if_neg hy]
      rcases hmem with h | h
      · rw [h]; exact List.mem_cons_self _ _
      · exact List.mem_cons_of_mem y (ih h)

theorem not_inQueue_eraseEntry {q : QueueT} {k : Nat} {s : St}
    (hnd : (q.map (·.2)).Nodup) (hmem : (k, s) ∈ q) :
    ∀ k', (k', s) ∉ eraseEntry q (k, s) := by
  induction q with
  | nil => simp at hmem
  | cons x q ih =>
    rw [List.map_cons, List.nodup_cons] at hnd
    rw [eraseEntry]
    by_cases hx : x = (k, s)
    · rw [if_pos hx]
      intro k' hk'
      have hs : s ∈ q.map (·.2) := List.mem_map_of_mem _ hk'
      rw [hx] at hnd
      exact hnd.1 hs
    · rw [if_neg hx]
      rw [List.mem_cons] at hmem
      rcases hmem with h | h
      · exact absurd h.symm hx
      · intro k' hk'
        rw [List.mem_cons] at hk'
        rcases hk' with h' | h'
        · have hs : s ∈ q.map (·.2) := List.mem_map_of_mem _ h
          rw [← h'] at hnd
          exact hnd.1 hs
        · exact ih hnd.2 h k' h'

theorem foldl_min_le (l : List Nat) :
    ∀ x, l.foldl Nat.min x ≤ x ∧ ∀ y ∈ l, l.foldl Nat.min x ≤ y := by
  induction l with
  | nil => intro x; exact ⟨le_refl x, by simp⟩
  | cons y ys ih =>
    intro x
    have h := ih (Nat.min x y)
    rw [List.foldl_cons]
    constructor
    · exact le_trans h.1 (Nat.min_le_left x y)
    · intro z hz
      rw [List.mem_cons] at hz
      rcases hz with hz | hz
      · subst hz
        exact le_trans h.1 (Nat.min_le_right x z)
      · exact h.2 z hz

theorem foldl_min_mem (l : List Nat) :
    ∀ x, l.foldl Nat.min x = x ∨ l.foldl Nat.min x ∈ l := by
  induction l with
  | nil => intro x; exact Or.inl rfl
  | cons y ys ih =>
    intro x
    rw [List.foldl_cons]
    rcases ih (Nat.min x y) with h | h
    · rcases Nat.le_total x y with hxy | hxy
      · left; rw [h]; exact Nat.min_eq_left hxy
      · right; rw [List.mem_cons]; left; rw [h]; exact Nat.min_eq_right hxy
    · right; exact List.mem_cons_of_mem y h

theorem listMin_spec {l : List Nat} {m : Nat} (h : listMin l = some m) :
    m ∈ l ∧ ∀ y ∈ l, m ≤ y := by
  cases l with
  | nil => simp [listMin] at h
  | cons x xs =>
    rw [listMin] at h
    injection h with h
    subst h
    constructor
    · rcases foldl_min_mem xs x with h | h
      · rw [h]; exact List.mem_cons_self x xs
      · exact List.mem_cons_of_mem x h
    · intro y hy
      rw [List.mem_cons] at hy
      rcases hy with hy | hy
      · rw [hy]; exact (foldl_min_le xs x).1
      · exact (foldl_min_le xs x).2 y hy

/-- C7: when the search exhausts its frontier without ever discovering a state
at the goal position (satisfying the minimum-run condition), the call fails
with `NoPathFound` — Python's `min` of the empty `possible_heatloss` list
raises — instead of returning a numeric result.  `min_run = 0`, `max_run = 3`
is `Day17_Part1`; `min_run = 4`, `max_run = 10` is `Day17_Part2`. -/
theorem c7_no_path_found (g : Grid) (min_run max_run fuel : Nat) (d : DictT)
    (hrun : searchLoop g min_run max_run fuel initDict initQueue = some d)
    (hempty : ∀ e ∈ d, ¬(e.1.1 = goalPos g ∧ min_run ≤ e.1.2.2)) :
    runSearch g min_run max_run fuel = some SearchOutcome.noPathFound := by
  have h1 : runSearch g min_run max_run fuel =
      (match listMin (goalCosts g min_run d) with
        | none => some SearchOutcome.noPathFound
        | some m => some (SearchOutcome.found m)) := by
    unfold runSearch
    rw [hrun]
  have hnil : goalCosts g min_run d = [] := by
    unfold goalCosts
    rw [List.map_eq_nil]
    rw [List.filter_eq_nil]
    intro e he
    simpa using hempty e he
  rw [h1, hnil]
  rfl

/-- Witness for C7: on a 1×5 grid, part 1's movement rules (max run 3) cannot
reach the bottom-right cell, and the call reports `NoPathFound`. -/
theorem c7_no_path_found_witness :
    runSearch [[1, 1, 1, 1, 1]] 0 3 100 = some SearchOutcome.noPathFound :=
  c7_no_path_found [[1, 1, 1, 1, 1]] 0 3 100 _ rfl (by decide)

theorem relaxDir_cases (g : Grid) (s₀ : St) (d : DictT) (q : QueueT) (dir : Dir) :
    relaxDir g s₀ (d, q) dir = (d, q) ∨
    (inBounds g (add_tuple s₀.1 dir) ∧
      dlookup d (nextSt s₀ dir) = none ∧
      relaxDir g s₀ (d, q) dir =
        (dinsert d (nextSt s₀ dir)
          ((dlookup d s₀).getD 0 + weight g (add_tuple s₀.1 dir)),
         q ++ [((dlookup d s₀).getD 0 + weight g (add_tuple s₀.1 dir),
           nextSt s₀ dir)])) ∨
    (inBounds g (add_tuple s₀.1 dir) ∧
      (∃ old, dlookup d (nextSt s₀ dir) = some old ∧
        (dlookup d s₀).getD 0 + weight g (add_tuple s₀.1 dir) < old) ∧
      relaxDir g s₀ (d, q) dir =
        (dupdate d (nextSt s₀ dir)
          ((dlookup d s₀).getD 0 + weight g (add_tuple s₀.1 dir)), q)) := by
  by_cases hb : inBounds g (add_tuple s₀.1 dir)
  · rcases hl : dlookup d (nextSt s₀ dir) with _ | old
    · right; left
      refine ⟨hb, rfl, ?_⟩
      unfold relaxDir
      rw [if_pos hb]
      simp only [hl]
    · by_cases hlt : (dlookup d s₀).getD 0 + weight g (add_tuple s₀.1 dir) < old
      · right; right
        refine ⟨hb, ⟨old, rfl, hlt⟩, ?_⟩
        unfold relaxDir
        rw [if_pos hb]
        simp only [hl]
        rw [if_pos hlt]
      · left
        unfold relaxDir
        rw [if_pos hb]
        simp only [hl]
        rw [if_neg hlt]
  · left
    unfold relaxDir
    rw [if_neg hb]

theorem relaxDir_step (g : Grid) (s₀ : St) (d : DictT) (q : QueueT) (dir : Dir) :
    (∀ t v, (t, v) ∈ d → ∃ v', v' ≤ v ∧ (t, v') ∈ (relaxDir g s₀ (d, q) dir).1) ∧
    (∀ k t, (k, t) ∈ (relaxDir g s₀ (d, q) dir).2 →
      (k, t) ∈ q ∨ ∀ v₀, (t, v₀) ∉ d) ∧
    (∀ t v, (t, v) ∈ (relaxDir g s₀ (d, q) dir).1 →
      (∃ v₀, (t, v₀) ∈ d) ∨ ∃ k, (k, t) ∈ (relaxDir g s₀ (d, q) dir).2) ∧
    (∀ k t, (k, t) ∈ q → (k, t) ∈ (relaxDir g s₀ (d, q) dir).2) ∧
    (∀ t v, (t, v) ∈ (relaxDir g s₀ (d, q) dir).1 → (t, v) ∈ d ∨
      (inBounds g (add_tuple s₀.1 dir) ∧ t = nextSt s₀ dir ∧
        v = (dlookup d s₀).getD 0 + weight g (add_tuple s₀.1 dir))) ∧
    (dlookup (relaxDir g s₀ (d, q) dir).1 s₀ = dlookup d s₀) := by
  rcases relaxDir_cases g s₀ d q dir with heq | ⟨hb, hl, heq⟩ | ⟨hb, ⟨old, hl, hlt⟩, heq⟩
  · rw [heq]
    refine ⟨fun t v hv => ⟨v, le_refl v, hv⟩, fun k t hk => Or.inl hk,
      fun t v hv => Or.inl ⟨v, hv⟩, fun k t hk => hk, fun t v hv => Or.inl hv, rfl⟩
  · rw [heq]
    refine ⟨?_, ?_, ?_, ?_, ?_, ?_⟩
    · intro t v hv
      exact ⟨v, le_refl v, List.mem_append_left _ hv⟩
    · intro k t hk
      rcases List.mem_append.mp hk with hk | hk
      · exact Or.inl hk
      · rw [List.mem_singleton] at hk
        right
        intro v₀
        have ht : t = nextSt s₀ dir := congrArg Prod.snd hk
        rw [ht]
        exact dlookup_none hl v₀
    · intro t v hv
      rcases List.mem_append.mp hv with hv | hv
      · exact Or.inl ⟨v, hv⟩
      · rw [List.mem_singleton] at hv
        right
        refine ⟨(dlookup d s₀).getD 0 + weight g (add_tuple s₀.1 dir), ?_⟩
        apply List.mem_append_right
        rw [List.mem_singleton]
        have ht : t = nextSt s₀ dir := congrArg Prod.fst hv
        rw [ht]
    · intro k t hk
      exact List.mem_append_left _ hk
    · intro t v hv
      rcases List.mem_append.mp hv with hv | hv
      · exact Or.inl hv
      · rw [List.mem_singleton] at hv
        exact Or.inr ⟨hb, congrArg Prod.fst hv, congrArg Prod.snd hv⟩
    · exact dlookup_dinsert_ne _ (fun hc => nextSt_ne s₀ dir hc.symm)
  · rw [heq]
    refine ⟨?_, ?_, ?_, ?_, ?_, ?_⟩
    · intro t v hv
      rcases mem_dupdate_of_mem (s := nextSt s₀ dir)
        (v := (dlookup d s₀).getD 0 + weight g (add_tuple s₀.1 dir)) hv with h | h
      · exact ⟨v, le_refl v, h⟩
      · obtain ⟨ht, hlv, hmem⟩ := h
        rw [hl] at hlv
        injection hlv with hlv
        refine ⟨(dlookup d s₀).getD 0 + weight g (add_tuple s₀.1 dir), ?_, ?_⟩
        · omega
        · rw [ht]; exact hmem
    · intro k t hk
      exact Or.inl hk
    · intro t v hv
      rcases mem_dupdate hv with h | h
      · exact Or.inl ⟨v, h⟩
      · exact Or.inl ⟨old, by rw [h.1]; exact dlookup_mem hl⟩
    · intro k t hk
      exact hk
    · intro t v hv
      rcases mem_dupdate hv with h | h
      · exact Or.inl h
      · exact Or.inr ⟨hb, h.1, h.2⟩
    · exact dlookup_dupdate_ne _ (fun hc => nextSt_ne s₀ dir hc.symm)

theorem relax_foldl (g : Grid) (s₀ : St) :
    ∀ (L : List Dir) (d : DictT) (q : QueueT),
    (∀ t v, (t, v) ∈ d → ∃ v', v' ≤ v ∧ (t, v') ∈ (L.foldl (relaxDir g s₀) (d, q)).1) ∧
    (∀ k t, (k, t) ∈ (L.foldl (relaxDir g s₀) (d, q)).2 →
      (k, t) ∈ q ∨ ∀ v₀, (t, v₀) ∉ d) ∧
    (∀ t v, (t, v) ∈ (L.foldl (relaxDir g s₀) (d, q)).1 →
      (∃ v₀, (t, v₀) ∈ d) ∨ ∃ k, (k, t) ∈ (L.foldl (relaxDir g s₀) (d, q)).2) ∧
    (∀ k t, (k, t) ∈ q → (k, t) ∈ (L.foldl (relaxDir g s₀) (d, q)).2) ∧
    (∀ t v, (t, v) ∈ (L.foldl (relaxDir g s₀) (d, q)).1 → (t, v) ∈ d ∨
      ∃ dir ∈ L, inBounds g (add_tuple s₀.1 dir) ∧ t = nextSt s₀ dir ∧
        v = (dlookup d s₀).getD 0 + weight g (add_tuple s₀.1 dir)) ∧
    (dlookup (L.foldl (relaxDir g s₀) (d, q)).1 s₀ = dlookup d s₀) := by
  intro L
  induction L with
  | nil =>
    intro d q
    refine ⟨fun t v hv => ⟨v, le_refl v, hv⟩, fun k t hk => Or.inl hk,
      fun t v hv => Or.inl ⟨v, hv⟩, fun k t hk => hk, fun t v hv => Or.inl hv, rfl⟩
  | cons dir L ih =>
    intro d q
    obtain ⟨s1, s2, s3, s4, s5, s6⟩ := relaxDir_step g s₀ d q dir
    rcases hmid : relaxDir g s₀ (d, q) dir with ⟨d₁, q₁⟩
    rw [hmid] at s1 s2 s3 s4 s5 s6
    obtain ⟨f1, f2, f3, f4, f5, f6⟩ := ih d₁ q₁
    have hfold : (dir :: L).foldl (relaxDir g s₀) (d, q) =
        L.foldl (relaxDir g s₀) (d₁, q₁) := by
      rw [List.foldl_cons, hmid]
    rw [hfold]
    refine ⟨?_, ?_, ?_, ?_, ?_, ?_⟩
    · intro t v hv
      obtain ⟨v₁, hv₁, hmem₁⟩ := s1 t v hv
      obtain ⟨v₂, hv₂, hmem₂⟩ := f1 t v₁ hmem₁
      exact ⟨v₂, le_trans hv₂ hv₁, hmem₂⟩
    · intro k t hk
      rcases f2 k t hk with h | h
      · rcases s2 k t h with h' | h'
        · exact Or.inl h'
        · exact Or.inr h'
      · right
        intro v₀ hv₀
        obtain ⟨v₁, _, hmem₁⟩ := s1 t v₀ hv₀
        exact h v₁ hmem₁
    · intro t v hv
      rcases f3 t v hv with ⟨v₁, hv₁⟩ | h
      · rcases s3 t v₁ hv₁ with h' | ⟨k, hk⟩
        · exact Or.inl h'
        · exact Or.inr ⟨k, f4 k t hk⟩
      · exact Or.inr h
    · intro k t hk
      exact f4 k t (s4 k t hk)
    · intro t v hv
      rcases f5 t v hv with h | ⟨dir', hdir', hb', ht', hv'⟩
      · rcases s5 t v h with h' | ⟨hb', ht', hv'⟩
        · exact Or.inl h'
        · exact Or.inr ⟨dir, List.mem_cons_self _ _, hb', ht', hv'⟩
      · right
        refine ⟨dir', List.mem_cons_of_mem dir hdir', hb', ht', ?_⟩
        rw [hv', s6]
    · rw [f6, s6]

/-- C3: in one iteration of the constrained shortest-path search (pop the
minimum entry, expand it), every entry of the cost map survives and its value
never increases (it is tightened in place when a cheaper incoming edge is
found); a state is pushed onto the priority queue only when it is not yet in
the cost map (first discovery), so a state whose stored cost is merely
tightened is never re-pushed. -/
theorem c3_cost_map_monotone (g : Grid) (min_run max_run : Nat)
    (d : DictT) (q : QueueT) (e : Nat × St)
    (hpop : findMinEntry q = some e) :
    (∀ t v, (t, v) ∈ d → ∃ v', v' ≤ v ∧
      (t, v') ∈ (expand g min_run max_run e.2 (d, eraseEntry q e)).1) ∧
    (∀ k t, (k, t) ∈ (expand g min_run max_run e.2 (d, eraseEntry q e)).2 →
      (k, t) ∈ eraseEntry q e ∨ ∀ v₀, (t, v₀) ∉ d) ∧
    (∀ t v, (t, v) ∈ (expand g min_run max_run e.2 (d, eraseEntry q e)).1 →
      (∃ v₀, (t, v₀) ∈ d) ∨
        ∃ k, (k, t) ∈ (expand g min_run max_run e.2 (d, eraseEntry q e)).2) := by
  obtain ⟨f1, f2, f3, _, _, _⟩ :=
    relax_foldl g e.2 (possibleDirs min_run max_run e.2.2.1 e.2.2.2) d
      (eraseEntry q e)
  exact ⟨f1, f2, f3⟩

/-- Witness for C3 on a concrete 1×2 grid and the initial queue. -/
theorem c3_cost_map_monotone_witness :
    (∀ t v, (t, v) ∈ initDict → ∃ v', v' ≤ v ∧
      (t, v') ∈ (expand [[1, 2]] 0 3 ((0, 0), (0, 1), 0)
        (initDict, eraseEntry initQueue (0, ((0, 0), (0, 1), 0)))).1) ∧
    (∀ k t, (k, t) ∈ (expand [[1, 2]] 0 3 ((0, 0), (0, 1), 0)
        (initDict, eraseEntry initQueue (0, ((0, 0), (0, 1), 0)))).2 →
      (k, t) ∈ eraseEntry initQueue (0, ((0, 0), (0, 1), 0)) ∨
        ∀ v₀, (t, v₀) ∉ initDict) ∧
    (∀ t v, (t, v) ∈ (expand [[1, 2]] 0 3 ((0, 0), (0, 1), 0)
        (initDict, eraseEntry initQueue (0, ((0, 0), (0, 1), 0)))).1 →
      (∃ v₀, (t, v₀) ∈ initDict) ∨
        ∃ k, (k, t) ∈ (expand [[1, 2]] 0 3 ((0, 0), (0, 1), 0)
          (initDict, eraseEntry initQueue (0, ((0, 0), (0, 1), 0)))).2) :=
  c3_cost_map_monotone [[1, 2]] 0 3 initDict initQueue
    (0, ((0, 0), (0, 1), 0)) (by decide)

/-- C10: the two initial start states (facing right and facing down, run
length 0) are recorded with cost 0, and in one iteration of the search every
created or tightened cost-map entry gets exactly the popped state's stored
cost plus the weight of the destination cell entered by the move — the start
cell's own weight is never counted. -/
theorem c10_cost_accounting (g : Grid) (min_run max_run : Nat)
    (d : DictT) (q : QueueT) (e : Nat × St)
    (hpop : findMinEntry q = some e) :
    initDict = [(((0, 0), (0, 1), 0), 0), (((0, 0), (1, 0), 0), 0)] ∧
    (∀ t v, (t, v) ∈ (expand g min_run max_run e.2 (d, eraseEntry q e)).1 →
      (t, v) ∈ d ∨
      ∃ dir ∈ possibleDirs min_run max_run e.2.2.1 e.2.2.2,
        inBounds g (add_tuple e.2.1 dir) ∧ t = nextSt e.2 dir ∧
        v = (dlookup d e.2).getD 0 + weight g (add_tuple e.2.1 dir)) := by
  obtain ⟨_, _, _, _, f5, _⟩ :=
    relax_foldl g e.2 (possibleDirs min_run max_run e.2.2.1 e.2.2.2) d
      (eraseEntry q e)
  exact ⟨rfl, f5⟩

/-- Witness for C10 on a concrete 1×2 grid and the initial queue. -/
theorem c10_cost_accounting_witness :
    initDict = [(((0, 0), (0, 1), 0), 0), (((0, 0), (1, 0), 0), 0)] ∧
    (∀ t v, (t, v) ∈ (expand [[1, 2]] 0 3 ((0, 0), (0, 1), 0)
        (initDict, eraseEntry initQueue (0, ((0, 0), (0, 1), 0)))).1 →
      (t, v) ∈ initDict ∨
      ∃ dir ∈ possibleDirs 0 3 (0, 1) 0,
        inBounds [[1, 2]] (add_tuple (0, 0) dir) ∧
        t = nextSt ((0, 0), (0, 1), 0) dir ∧
        v = (dlookup initDict ((0, 0), (0, 1), 0)).getD 0 +
          weight [[1, 2]] (add_tuple (0, 0) dir)) :=
  c10_cost_accounting [[1, 2]] 0 3 initDict initQueue
    (0, ((0, 0), (0, 1), 0)) (by decide)

/-- The loop invariant of the Day17 search, relating cost map and queue.
States in the map but not in the queue have been popped and are settled. -/
structure Inv (g : Grid) (mn mx : Nat) (d : DictT) (q : QueueT) : Prop where
  keysNodup : (d.map (·.1)).Nodup
  queueNodup : (q.map (·.2)).Nodup
  queueDict : ∀ k s, (k, s) ∈ q → dlookup d s = some k
  startZero : ∀ s0 ∈ startStates, dlookup d s0 = some 0
  reach : ∀ s v, (s, v) ∈ d → Reaches g mn mx s v
  settledMin : ∀ s v, (s, v) ∈ d → ¬ inQueue q s →
    ∀ c, Reaches g mn mx s c → v ≤ c
  settledExp : ∀ s v, (s, v) ∈ d → ¬ inQueue q s →
    ∀ dir ∈ possibleDirs mn mx s.2.1 s.2.2, inBounds g (add_tuple s.1 dir) →
      ∃ v', dlookup d (nextSt s dir) = some v' ∧
        v' ≤ v + weight g (add_tuple s.1 dir)
  settledLe : ∀ s v, (s, v) ∈ d → ¬ inQueue q s → ∀ k' s', (k', s') ∈ q → v ≤ k'
  cert : ∀ s v, (s, v) ∈ d → (s ∈ startStates ∧ v = 0) ∨
    ∃ p vp, (p, vp) ∈ d ∧ ¬ inQueue q p ∧
      ∃ dir ∈ possibleDirs mn mx p.2.1 p.2.2, inBounds g (add_tuple p.1 dir) ∧
        s = nextSt p dir ∧ v ≤ vp + weight g s.1

/-- Frontier lemma: any state reachable at cost `c` is either settled with a
recorded cost at most `c`, or the queue holds some entry with key at most
`c`. -/
theorem frontier (g : Grid) (mn mx : Nat) (d : DictT) (q : QueueT)
    (hInv : Inv g mn mx d q) :
    ∀ s c, Reaches g mn mx s c →
      (∃ v, dlookup d s = some v ∧ ¬ inQueue q s ∧ v ≤ c) ∨
      (∃ k t, (k, t) ∈ q ∧ k ≤ c) := by
  intro s c h
  induction h with
  | start s0 h0 =>
    have hl := hInv.startZero s0 h0
    by_cases hq : inQueue q s0
    · obtain ⟨k, hk⟩ := hq
      have hk' := hInv.queueDict k s0 hk
      rw [hl] at hk'
      injection hk' with hk'
      exact Or.inr ⟨k, s0, hk, by omega⟩
    · exact Or.inl ⟨0, hl, hq, le_refl 0⟩
  | step dir hdir hb hs ih =>
    rename_i s' c'
    rcases ih with ⟨v, hv, hnq, hvc⟩ | ⟨k, t, hkt, hkc⟩
    · have hmem : (s', v) ∈ d := dlookup_mem hv
      obtain ⟨v', hv', hle⟩ := hInv.settledExp s' v hmem hnq dir hdir hb
      by_cases hq' : inQueue q (nextSt s' dir)
      · obtain ⟨k', hk'⟩ := hq'
        have hkd := hInv.queueDict k' _ hk'
        rw [hv'] at hkd
        injection hkd with hkd
        exact Or.inr ⟨k', nextSt s' dir, hk', by omega⟩
      · exact Or.inl ⟨v', hv', hq', by omega⟩
    · exact Or.inr ⟨k, t, hkt, by omega⟩

/-- The popped minimum entry carries the true minimum cost of its state. -/
theorem pop_minimal (g : Grid) (mn mx : Nat) (d : DictT) (q : QueueT)
    (hInv : Inv g mn mx d q) (k₀ : Nat) (s₀ : St) (hmem : (k₀, s₀) ∈ q)
    (hmin : ∀ k s, (k, s) ∈ q → k₀ ≤ k) :
    ∀ c, Reaches g mn mx s₀ c → k₀ ≤ c := by
  intro c hc
  rcases frontier g mn mx d q hInv s₀ c hc with ⟨v, _, hnq, _⟩ | ⟨k, t, hkt, hkc⟩
  · exact absurd ⟨k₀, hmem⟩ hnq
  · exact le_trans (hmin k t hkt) hkc

theorem state_mem_iff (q : QueueT) (s : St) :
    s ∈ q.map (·.2) ↔ ∃ k, (k, s) ∈ q := by
  rw [List.mem_map]
  constructor
  · rintro ⟨e, he, he2⟩
    exact ⟨e.1, by rw [← he2]; exact he⟩
  · rintro ⟨k, hk⟩
    exact ⟨(k, s), hk, rfl⟩

theorem key_mem_iff (d : DictT) (s : St) :
    s ∈ d.map (·.1) ↔ ∃ v, (s, v) ∈ d := by
  rw [List.mem_map]
  constructor
  · rintro ⟨e, he, he2⟩
    exact ⟨e.2, by rw [← he2]; exact he⟩
  · rintro ⟨v, hv⟩
    exact ⟨(s, v), hv, rfl⟩

theorem inQueue_append_single {q : QueueT} {v : Nat} {ns t : St} :
    inQueue (q ++ [(v, ns)]) t ↔ inQueue q t ∨ t = ns := by
  unfold inQueue
  constructor
  · rintro ⟨k, hk⟩
    rcases List.mem_append.mp hk with h | h
    · exact Or.inl ⟨k, h⟩
    · rw [List.mem_singleton] at h
      exact Or.inr (congrArg Prod.snd h)
  · rintro (⟨k, hk⟩ | rfl)
    · exact ⟨k, List.mem_append_left _ hk⟩
    · exact ⟨v, List.mem_append_right _ (by rw [List.mem_singleton])⟩

/-- Mid-expansion invariant: the popped state `s₀` with settled cost `k₀` has
been expanded along the directions in `done` so far. -/
structure MidInv (g : Grid) (mn mx : Nat) (s₀ : St) (k₀ : Nat) (done : List Dir)
    (d : DictT) (q : QueueT) : Prop where
  keysNodup : (d.map (·.1)).Nodup
  queueNodup : (q.map (·.2)).Nodup
  queueDict : ∀ k s, (k, s) ∈ q → dlookup d s = some k
  startZero : ∀ s0 ∈ startStates, dlookup d s0 = some 0
  reach : ∀ s v, (s, v) ∈ d → Reaches g mn mx s v
  settledMin : ∀ s v, (s, v) ∈ d → ¬ inQueue q s →
    ∀ c, Reaches g mn mx s c → v ≤ c
  settledExpOld : ∀ s v, (s, v) ∈ d → ¬ inQueue q s → s ≠ s₀ →
    ∀ dir ∈ possibleDirs mn mx s.2.1 s.2.2, inBounds g (add_tuple s.1 dir) →
      ∃ v', dlookup d (nextSt s dir) = some v' ∧
        v' ≤ v + weight g (add_tuple s.1 dir)
  sExpDone : ∀ dir ∈ done, inBounds g (add_tuple s₀.1 dir) →
      ∃ v', dlookup d (nextSt s₀ dir) = some v' ∧
        v' ≤ k₀ + weight g (add_tuple s₀.1 dir)
  settledLe : ∀ s v, (s, v) ∈ d → ¬ inQueue q s → ∀ k' s', (k', s') ∈ q → v ≤ k'
  settledK : ∀ s v, (s, v) ∈ d → ¬ inQueue q s → v ≤ k₀
  cert : ∀ s v, (s, v) ∈ d → (s ∈ startStates ∧ v = 0) ∨
    ∃ p vp, (p, vp) ∈ d ∧ ¬ inQueue q p ∧
      ∃ dir ∈ possibleDirs mn mx p.2.1 p.2.2, inBounds g (add_tuple p.1 dir) ∧
        s = nextSt p dir ∧ v ≤ vp + weight g s.1
  sLook : dlookup d s₀ = some k₀
  sNotQ : ¬ inQueue q s₀
  keyMin : ∀ k' s', (k', s') ∈ q → k₀ ≤ k'

theorem midInv_extend_done {g : Grid} {mn mx : Nat} {s₀ : St} {k₀ : Nat}
    {done : List Dir} {d : DictT} {q : QueueT} (dir : Dir)
    (hI : MidInv g mn mx s₀ k₀ done d q)
    (hx : inBounds g (add_tuple s₀.1 dir) →
      ∃ v', dlookup d (nextSt s₀ dir) = some v' ∧
        v' ≤ k₀ + weight g (add_tuple s₀.1 dir)) :
    MidInv g mn mx s₀ k₀ (done ++ [dir]) d q :=
  { hI with
    sExpDone := by
      intro dir' hdir' hb'
      rcases List.mem_append.mp hdir' with h | h
      · exact hI.sExpDone dir' h hb'
      · rw [List.mem_singleton] at h
        subst h
        exact hx hb' }

theorem midInv_step (g : Grid) (mn mx : Nat) (s₀ : St) (k₀ : Nat)
    (done : List Dir) (dir : Dir)
    (hdir : dir ∈ possibleDirs mn mx s₀.2.1 s₀.2.2)
    (d : DictT) (q : QueueT)
    (hI : MidInv g mn mx s₀ k₀ done d q) :
    MidInv g mn mx s₀ k₀ (done ++ [dir]) (relaxDir g s₀ (d, q) dir).1
      (relaxDir g s₀ (d, q) dir).2 := by
  have hB : (dlookup d s₀).getD 0 = k₀ := by rw [hI.sLook]; rfl
  by_cases hb : inBounds g (add_tuple s₀.1 dir)
  · rcases hl : dlookup d (nextSt s₀ dir) with _ | old
    · -- first discovery: create the entry and push the new state
      have heq : relaxDir g s₀ (d, q) dir =
          (dinsert d (nextSt s₀ dir)
            ((dlookup d s₀).getD 0 + weight g (add_tuple s₀.1 dir)),
           q ++ [((dlookup d s₀).getD 0 + weight g (add_tuple s₀.1 dir),
             nextSt s₀ dir)]) := by
        unfold relaxDir
        rw [if_pos hb]
        simp only [hl]
      rw [heq, hB]
      have hnsAbs : ∀ v₀, (nextSt s₀ dir, v₀) ∉ d := dlookup_none hl
      have hnsKey : nextSt s₀ dir ∉ d.map (·.1) := by
        rw [key_mem_iff]
        rintro ⟨v₀, hv₀⟩
        exact hnsAbs v₀ hv₀
      have hnsQ : ¬ inQueue q (nextSt s₀ dir) := by
        rintro ⟨k, hk⟩
        have h' := hI.queueDict k _ hk
        rw [hl] at h'
        exact Option.noConfusion h'
      have hs₀ne : s₀ ≠ nextSt s₀ dir := fun hc => nextSt_ne s₀ dir hc.symm
      have hs₀mem : (s₀, k₀) ∈ d := dlookup_mem hI.sLook
      have hmemD : ∀ {s : St} {w : Nat},
          (s, w) ∈ dinsert d (nextSt s₀ dir)
            (k₀ + weight g (add_tuple s₀.1 dir)) →
          (s, w) ∈ d ∨
            (s = nextSt s₀ dir ∧ w = k₀ + weight g (add_tuple s₀.1 dir)) := by
        intro s w hw
        rcases List.mem_append.mp hw with h | h
        · exact Or.inl h
        · rw [List.mem_singleton] at h
          exact Or.inr ⟨congrArg Prod.fst h, congrArg Prod.snd h⟩
      refine ⟨?_, ?_, ?_, ?_, ?_, ?_, ?_, ?_, ?_, ?_, ?_, ?_, ?_, ?_⟩
      · -- keysNodup
        show ((d ++ _).map (·.1)).Nodup
        rw [List.map_append, List.nodup_append]
        refine ⟨hI.keysNodup, List.nodup_singleton _, ?_⟩
        intro a ha hb'
        rw [List.map_singleton, List.mem_singleton] at hb'
        subst hb'
        exact hnsKey ha
      · -- queueNodup
        show ((q ++ _).map (·.2)).Nodup
        rw [List.map_append, List.nodup_append]
        refine ⟨hI.queueNodup, List.nodup_singleton _, ?_⟩
        intro a ha hb'
        rw [List.map_singleton, List.mem_singleton] at hb'
        subst hb'
        rw [state_mem_iff] at ha
        obtain ⟨k, hk⟩ := ha
        exact hnsQ ⟨k, hk⟩
      · -- queueDict
        intro k s hk
        rcases List.mem_append.mp hk with h | h
        · have h' := hI.queueDict k s h
          have hne : s ≠ nextSt s₀ dir := by
            intro hc
            rw [hc, hl] at h'
            exact Option.noConfusion h'
          rw [dlookup_dinsert_ne _ hne]
          exact h'
        · rw [List.mem_singleton] at h
          have hs : s = nextSt s₀ dir := congrArg Prod.snd h
          have hk' : k = k₀ + weight g (add_tuple s₀.1 dir) := congrArg Prod.fst h
          rw [hs, hk']
          exact dlookup_dinsert_self _ hl
      · -- startZero
        intro s0 h0
        have h' := hI.startZero s0 h0
        have hne : s0 ≠ nextSt s₀ dir := by
          intro hc
          rw [hc, hl] at h'
          exact Option.noConfusion h'
        rw [dlookup_dinsert_ne _ hne]
        exact h'
      · -- reach
        intro s w hw
        rcases hmemD hw with h | ⟨hs, hv⟩
        · exact hI.reach s w h
        · subst hs
          subst hv
          exact Reaches.step dir hdir hb (hI.reach s₀ k₀ hs₀mem)
      · -- settledMin
        intro s w hw hnq'
        have hnq : ¬ inQueue q s := fun h =>
          hnq' ((inQueue_append_single).mpr (Or.inl h))
        rcases hmemD hw with h | ⟨hs, _⟩
        · exact hI.settledMin s w h hnq
        · exact absurd ((inQueue_append_single).mpr (Or.inr hs)) hnq'
      · -- settledExpOld
        intro s w hw hnq' hne dir' hdir' hb'
        have hnq : ¬ inQueue q s := fun h =>
          hnq' ((inQueue_append_single).mpr (Or.inl h))
        rcases hmemD hw with h | ⟨hs, _⟩
        · obtain ⟨v', hv', hle⟩ := hI.settledExpOld s w h hnq hne dir' hdir' hb'
          have hne2 : nextSt s dir' ≠ nextSt s₀ dir := by
            intro hc
            rw [hc, hl] at hv'
            exact Option.noConfusion hv'
          exact ⟨v', by rw [dlookup_dinsert_ne _ hne2]; exact hv', hle⟩
        · exact absurd ((inQueue_append_single).mpr (Or.inr hs)) hnq'
      · -- sExpDone
        intro dir' hdir' hb'
        rcases List.mem_append.mp hdir' with h | h
        · obtain ⟨v', hv', hle⟩ := hI.sExpDone dir' h hb'
          have hne2 : nextSt s₀ dir' ≠ nextSt s₀ dir := by
            intro hc
            rw [hc, hl] at hv'
            exact Option.noConfusion hv'
          exact ⟨v', by rw [dlookup_dinsert_ne _ hne2]; exact hv', hle⟩
        · rw [List.mem_singleton] at h
          subst h
          exact ⟨k₀ + weight g (add_tuple s₀.1 dir'),
            dlookup_dinsert_self _ hl, le_refl _⟩
      · -- settledLe
        intro s w hw hnq' k' s' hk'
        have hnq : ¬ inQueue q s := fun h =>
          hnq' ((inQueue_append_single).mpr (Or.inl h))
        rcases hmemD hw with h | ⟨hs, _⟩
        · rcases List.mem_append.mp hk' with h' | h'
          · exact hI.settledLe s w h hnq k' s' h'
          · rw [List.mem_singleton] at h'
            have hk'' : k' = k₀ + weight g (add_tuple s₀.1 dir) :=
              congrArg Prod.fst h'
            have := hI.settledK s w h hnq
            omega
        · exact absurd ((inQueue_append_single).mpr (Or.inr hs)) hnq'
      · -- settledK
        intro s w hw hnq'
        have hnq : ¬ inQueue q s := fun h =>
          hnq' ((inQueue_append_single).mpr (Or.inl h))
        rcases hmemD hw with h | ⟨hs, _⟩
        · exact hI.settledK s w h hnq
        · exact absurd ((inQueue_append_single).mpr (Or.inr hs)) hnq'
      · -- cert
        intro s w hw
        rcases hmemD hw with h | ⟨hs, hv⟩
        · rcases hI.cert s w h with hstart | ⟨p, vp, hpd, hpq, dir', hdir', hb', hsn, hbound⟩
          · exact Or.inl hstart
          · right
            have hpne : p ≠ nextSt s₀ dir := by
              intro hc
              rw [hc] at hpd
              exact hnsAbs vp hpd
            refine ⟨p, vp, List.mem_append_left _ hpd, ?_, dir', hdir', hb', hsn, hbound⟩
            intro hq'
            rcases (inQueue_append_single).mp hq' with h' | h'
            · exact hpq h'
            · exact hpne h'
        · right
          subst hs
          subst hv
          refine ⟨s₀, k₀, List.mem_append_left _ hs₀mem, ?_, dir, hdir, hb, rfl, le_refl _⟩
          intro hq'
          rcases (inQueue_append_single).mp hq' with h' | h'
          · exact hI.sNotQ h'
          · exact hs₀ne h'
      · -- sLook
        rw [dlookup_dinsert_ne _ hs₀ne]
        exact hI.sLook
      · -- sNotQ
        intro hq'
        rcases (inQueue_append_single).mp hq' with h' | h'
        · exact hI.sNotQ h'
        · exact hs₀ne h'
      · -- keyMin
        intro k' s' hk'
        rcases List.mem_append.mp hk' with h' | h'
        · exact hI.keyMin k' s' h'
        · rw [List.mem_singleton] at h'
          have hk'' : k' = k₀ + weight g (add_tuple s₀.1 dir) :=
            congrArg Prod.fst h'
          omega
    · by_cases hlt : (dlookup d s₀).getD 0 + weight g (add_tuple s₀.1 dir) < old
      · -- a cheaper edge into an already recorded state: impossible here
        exfalso
        rw [hB] at hlt
        have hentry : (nextSt s₀ dir, old) ∈ d := dlookup_mem hl
        rcases hI.cert _ _ hentry with ⟨_, hzero⟩ | ⟨p, vp, hpd, hpq, dir', hdir', hb', hsn, hbound⟩
        · omega
        · have hvp : vp ≤ k₀ := hI.settledK p vp hpd hpq
          have hw : weight g (nextSt s₀ dir).1 = weight g (add_tuple s₀.1 dir) := rfl
          rw [hw] at hbound
          omega
      · -- existing state already at least as cheap: nothing changes
        have heq : relaxDir g s₀ (d, q) dir = (d, q) := by
          unfold relaxDir
          rw [if_pos hb]
          simp only [hl]
          rw [if_neg hlt]
        rw [heq]
        rw [hB] at hlt
        exact midInv_extend_done dir hI (fun _ => ⟨old, hl, by omega⟩)
  · have heq : relaxDir g s₀ (d, q) dir = (d, q) := by
      unfold relaxDir
      rw [if_neg hb]
    rw [heq]
    exact midInv_extend_done dir hI (fun hb' => absurd hb' hb)

theorem expand_midInv (g : Grid) (mn mx : Nat) (s₀ : St) (k₀ : Nat) :
    ∀ (L done : List Dir) (d : DictT) (q : QueueT),
      possibleDirs mn mx s₀.2.1 s₀.2.2 = done ++ L →
      MidInv g mn mx s₀ k₀ done d q →
      MidInv g mn mx s₀ k₀ (done ++ L)
        (L.foldl (relaxDir g s₀) (d, q)).1 (L.foldl (relaxDir g s₀) (d, q)).2 := by
  intro L
  induction L with
  | nil =>
    intro done d q heq hI
    simpa using hI
  | cons dir L ih =>
    intro done d q heq hI
    have hdir : dir ∈ possibleDirs mn mx s₀.2.1 s₀.2.2 := by
      rw [heq]
      exact List.mem_append_right _ (List.mem_cons_self _ _)
    have h1 := midInv_step g mn mx s₀ k₀ done dir hdir d q hI
    rcases hmid : relaxDir g s₀ (d, q) dir with ⟨d₁, q₁⟩
    rw [hmid] at h1
    have heq2 : possibleDirs mn mx s₀.2.1 s₀.2.2 = (done ++ [dir]) ++ L := by
      rw [heq]
      simp
    have h2 := ih (done ++ [dir]) d₁ q₁ heq2 h1
    have hfold : (dir :: L).foldl (relaxDir g s₀) (d, q) =
        L.foldl (relaxDir g s₀) (d₁, q₁) := by
      rw [List.foldl_cons, hmid]
    rw [hfold]
    have hdone : (done ++ [dir]) ++ L = done ++ (dir :: L) := by simp
    rw [← hdone]
    exact h2

theorem step_preserveInv (g : Grid) (mn mx : Nat) (d : DictT) (q : QueueT)
    (hInv : Inv g mn mx d q) (e : Nat × St) (hpop : findMinEntry q = some e) :
    Inv g mn mx (expand g mn mx e.2 (d, eraseEntry q e)).1
      (expand g mn mx e.2 (d, eraseEntry q e)).2 := by
  obtain ⟨k₀, s₀⟩ := e
  have hmem : (k₀, s₀) ∈ q := findMinEntry_mem hpop
  have hminE := findMinEntry_min hpop
  have hmin : ∀ k s, (k, s) ∈ q → k₀ ≤ k := fun k s h =>
    entryLe_key (hminE (k, s) h)
  have hk₀ : dlookup d s₀ = some k₀ := hInv.queueDict k₀ s₀ hmem
  have hpmin : ∀ c, Reaches g mn mx s₀ c → k₀ ≤ c :=
    pop_minimal g mn mx d q hInv k₀ s₀ hmem hmin
  have hvk : ∀ {v : Nat}, (s₀, v) ∈ d → v = k₀ := by
    intro v hv
    have h2 := dlookup_of_mem hInv.keysNodup hv
    rw [hk₀] at h2
    exact (Option.some.inj h2).symm
  have hsubQ : ∀ x ∈ eraseEntry q (k₀, s₀), x ∈ q := fun x hx =>
    (eraseEntry_sublist q (k₀, s₀)).subset hx
  have hinQ : ∀ s, s ≠ s₀ → inQueue q s → inQueue (eraseEntry q (k₀, s₀)) s := by
    rintro s hne ⟨k, hk⟩
    refine ⟨k, mem_eraseEntry_of_ne hk ?_⟩
    intro hc
    exact hne (congrArg Prod.snd hc)
  have hnotin : ¬ inQueue (eraseEntry q (k₀, s₀)) s₀ := by
    rintro ⟨k, hk⟩
    exact not_inQueue_eraseEntry hInv.queueNodup hmem k hk
  have hsettled : ∀ s, ¬ inQueue (eraseEntry q (k₀, s₀)) s → s ≠ s₀ →
      ¬ inQueue q s := fun s h hne hq => h (hinQ s hne hq)
  have hM : MidInv g mn mx s₀ k₀ [] d (eraseEntry q (k₀, s₀)) := by
    refine ⟨hInv.keysNodup, ?_, ?_, hInv.startZero, hInv.reach, ?_, ?_, ?_, ?_,
      ?_, ?_, hk₀, hnotin, ?_⟩
    · exact List.Nodup.sublist
        ((eraseEntry_sublist q (k₀, s₀)).map (·.2)) hInv.queueNodup
    · intro k s hk
      exact hInv.queueDict k s (hsubQ _ hk)
    · intro s v hv hnq
      by_cases hs : s = s₀
      · subst hs
        rw [hvk hv]
        exact hpmin
      · exact hInv.settledMin s v hv (hsettled s hnq hs)
    · intro s v hv hnq hne dir hdir hb
      exact hInv.settledExp s v hv (hsettled s hnq hne) dir hdir hb
    · intro dir hdir
      exact absurd hdir (List.not_mem_nil dir)
    · intro s v hv hnq k' s' hk'
      by_cases hs : s = s₀
      · subst hs
        rw [hvk hv]
        exact hmin k' s' (hsubQ _ hk')
      · exact hInv.settledLe s v hv (hsettled s hnq hs) k' s' (hsubQ _ hk')
    · intro s v hv hnq
      by_cases hs : s = s₀
      · subst hs
        rw [hvk hv]
      · exact hInv.settledLe s v hv (hsettled s hnq hs) k₀ s₀ hmem
    · intro s v hv
      rcases hInv.cert s v hv with h | ⟨p, vp, hpd, hpq, dir, hdirm, hb, hsn, hbd⟩
      · exact Or.inl h
      · right
        refine ⟨p, vp, hpd, ?_, dir, hdirm, hb, hsn, hbd⟩
        rintro ⟨k, hk⟩
        exact hpq ⟨k, hsubQ _ hk⟩
    · intro k' s' hk'
      exact hmin k' s' (hsubQ _ hk')
  have hfold := expand_midInv g mn mx s₀ k₀
    (possibleDirs mn mx s₀.2.1 s₀.2.2) [] d (eraseEntry q (k₀, s₀))
    (by simp) hM
  rw [List.nil_append] at hfold
  show Inv g mn mx
    ((possibleDirs mn mx s₀.2.1 s₀.2.2).foldl (relaxDir g s₀)
      (d, eraseEntry q (k₀, s₀))).1
    ((possibleDirs mn mx s₀.2.1 s₀.2.2).foldl (relaxDir g s₀)
      (d, eraseEntry q (k₀, s₀))).2
  refine ⟨hfold.keysNodup, hfold.queueNodup, hfold.queueDict, hfold.startZero,
    hfold.reach, hfold.settledMin, ?_, hfold.settledLe, hfold.cert⟩
  intro s v hv hnq dir hdir hb
  by_cases hs : s = s₀
  · subst hs
    have hveq : v = k₀ := by
      have h2 := dlookup_of_mem hfold.keysNodup hv
      rw [hfold.sLook] at h2
      exact (Option.some.inj h2).symm
    rw [hveq]
    exact hfold.sExpDone dir hdir hb
  · exact hfold.settledExpOld s v hv hnq hs dir hdir hb

theorem mem_initDict {s : St} {v : Nat} (h : (s, v) ∈ initDict) :
    (s = ((0, 0), (0, 1), 0) ∧ v = 0) ∨ (s = ((0, 0), (1, 0), 0) ∧ v = 0) := by
  rcases List.mem_cons.mp h with h | h
  · exact Or.inl ⟨congrArg Prod.fst h, congrArg Prod.snd h⟩
  · rw [List.mem_singleton] at h
    exact Or.inr ⟨congrArg Prod.fst h, congrArg Prod.snd h⟩

theorem mem_initQueue {k : Nat} {s : St} (h : (k, s) ∈ initQueue) :
    (k = 0 ∧ s = ((0, 0), (0, 1), 0)) ∨ (k = 0 ∧ s = ((0, 0), (1, 0), 0)) := by
  rcases List.mem_cons.mp h with h | h
  · exact Or.inl ⟨congrArg Prod.fst h, congrArg Prod.snd h⟩
  · rw [List.mem_singleton] at h
    exact Or.inr ⟨congrArg Prod.fst h, congrArg Prod.snd h⟩

theorem inv_init (g : Grid) (mn mx : Nat) : Inv g mn mx initDict initQueue := by
  refine ⟨by decide, by decide, ?_, ?_, ?_, ?_, ?_, ?_, ?_⟩
  · intro k s hk
    rcases mem_initQueue hk with ⟨hk0, hs⟩ | ⟨hk0, hs⟩ <;> subst hs <;> subst hk0 <;> rfl
  · intro s0 h0
    fin_cases h0 <;> rfl
  · intro s v hv
    rcases mem_initDict hv with ⟨hs, hv0⟩ | ⟨hs, hv0⟩ <;> subst hs <;> subst hv0 <;>
      exact Reaches.start _ (by decide)
  · intro s v hv hnq
    exfalso
    rcases mem_initDict hv with ⟨hs, _⟩ | ⟨hs, _⟩ <;> subst hs
    · exact hnq ⟨0, by decide⟩
    · exact hnq ⟨0, by decide⟩
  · intro s v hv hnq
    exfalso
    rcases mem_initDict hv with ⟨hs, _⟩ | ⟨hs, _⟩ <;> subst hs
    · exact hnq ⟨0, by decide⟩
    · exact hnq ⟨0, by decide⟩
  · intro s v hv hnq
    exfalso
    rcases mem_initDict hv with ⟨hs, _⟩ | ⟨hs, _⟩ <;> subst hs
    · exact hnq ⟨0, by decide⟩
    · exact hnq ⟨0, by decide⟩
  · intro s v hv
    left
    rcases mem_initDict hv with ⟨hs, hv0⟩ | ⟨hs, hv0⟩ <;> subst hs <;> subst hv0 <;>
      exact ⟨by decide, rfl⟩

theorem searchLoop_invariant (g : Grid) (mn mx : Nat) :
    ∀ (fuel : Nat) (d : DictT) (q : QueueT) (d' : DictT),
      Inv g mn mx d q → searchLoop g mn mx fuel d q = some d' →
      Inv g mn mx d' [] := by
  intro fuel
  induction fuel with
  | zero =>
    intro d q d' hI hrun
    cases q with
    | nil =>
      injection hrun with hrun
      subst hrun
      exact hI
    | cons x q =>
      exact Option.noConfusion hrun
  | succ fuel ih =>
    intro d q d' hI hrun
    rw [searchLoop] at hrun
    rcases hpop : findMinEntry q with _ | e
    · simp only [hpop] at hrun
      injection hrun with hrun
      subst hrun
      rw [findMinEntry_none hpop] at hI
      exact hI
    · simp only [hpop] at hrun
      exact ih _ _ d' (step_preserveInv g mn mx d q hI e hpop) hrun

theorem runSearch_lower_bound (g : Grid) (mn mx fuel : Nat) (r : SearchOutcome)
    (hr : runSearch g mn mx fuel = some r) :
    ∀ s c, Reaches g mn mx s c → s.1 = goalPos g → mn ≤ s.2.2 →
    ∃ m, r = SearchOutcome.found m ∧ m ≤ c ∧
      ∃ s', s'.1 = goalPos g ∧ mn ≤ s'.2.2 ∧ Reaches g mn mx s' m := by
  intro s c hreach hgoal hrn
  unfold runSearch at hr
  rcases hloop : searchLoop g mn mx fuel initDict initQueue with _ | d'
  · rw [hloop] at hr
    exact Option.noConfusion hr
  rw [hloop] at hr
  have hInv : Inv g mn mx d' [] :=
    searchLoop_invariant g mn mx fuel initDict initQueue d' (inv_init g mn mx) hloop
  rcases frontier g mn mx d' [] hInv s c hreach with ⟨v, hv, _, hvc⟩ | ⟨k, t, hkt, _⟩
  swap
  · exact absurd hkt (List.not_mem_nil _)
  have hventry : (s, v) ∈ d' := dlookup_mem hv
  have hvg : v ∈ goalCosts g mn d' := by
    unfold goalCosts
    rw [List.mem_map]
    refine ⟨(s, v), ?_, rfl⟩
    rw [List.mem_filter]
    refine ⟨hventry, ?_⟩
    rw [decide_eq_true_eq]
    exact ⟨hgoal, hrn⟩
  rcases hgc : goalCosts g mn d' with _ | ⟨x, xs⟩
  · rw [hgc] at hvg
    exact absurd hvg (List.not_mem_nil v)
  · have hlm : listMin (goalCosts g mn d') = some (xs.foldl Nat.min x) := by
      rw [hgc]
      rfl
    simp only [hlm] at hr
    injection hr with hr
    have hspec := listMin_spec hlm
    refine ⟨xs.foldl Nat.min x, hr.symm, ?_, ?_⟩
    · exact le_trans (hspec.2 v hvg) hvc
    · have hm := hspec.1
      unfold goalCosts at hm
      rw [List.mem_map] at hm
      obtain ⟨e, he, hev⟩ := hm
      rw [List.mem_filter] at he
      have hcond := he.2
      rw [decide_eq_true_eq] at hcond
      refine ⟨e.1, hcond.1, hcond.2, ?_⟩
      have hre := hInv.reach e.1 e.2 he.1
      rw [hev] at hre
      exact hre

/-- C1: for every weighted grid of non-negative per-cell costs, the minimum
cost returned by the constrained shortest-path search (`Day17_Part1` with max
run 3; `Day17_Part2` with min run 4 and max run 10) is a lower bound for the
total cost of every concrete path from the top-left cell to the bottom-right
cell obeying the run-length constraints (and, for part 2, ending with run
length at least 4), and the answer is itself the cost of a satisfying goal
state — the minimum cost among all satisfying goal states. -/
theorem c1_lower_bound (g : Grid) (fuel : Nat) (r₁ r₂ : SearchOutcome)
    (h1 : Day17_Part1 g fuel = some r₁) (h2 : Day17_Part2 g fuel = some r₂) :
    (∀ s c, Reaches g 0 3 s c → s.1 = goalPos g →
      ∃ m, r₁ = SearchOutcome.found m ∧ m ≤ c ∧
        ∃ s', s'.1 = goalPos g ∧ Reaches g 0 3 s' m) ∧
    (∀ s c, Reaches g 4 10 s c → s.1 = goalPos g → 4 ≤ s.2.2 →
      ∃ m, r₂ = SearchOutcome.found m ∧ m ≤ c ∧
        ∃ s', s'.1 = goalPos g ∧ 4 ≤ s'.2.2 ∧ Reaches g 4 10 s' m) := by
  constructor
  · intro s c hreach hgoal
    obtain ⟨m, hm, hmc, s', hs'g, _, hs'r⟩ :=
      runSearch_lower_bound g 0 3 fuel r₁ h1 s c hreach hgoal (Nat.zero_le _)
    exact ⟨m, hm, hmc, s', hs'g, hs'r⟩
  · intro s c hreach hgoal hrn
    exact runSearch_lower_bound g 4 10 fuel r₂ h2 s c hreach hgoal hrn

/-- Witness for C1 on a concrete 2×2 grid (part 1 finds cost 6; part 2 has no
satisfying goal state there and reports `NoPathFound`, making its clause
vacuously checkable). -/
theorem c1_lower_bound_witness :
    (∀ s c, Reaches [[1, 2], [3, 4]] 0 3 s c → s.1 = goalPos [[1, 2], [3, 4]] →
      ∃ m, SearchOutcome.found 6 = SearchOutcome.found m ∧ m ≤ c ∧
        ∃ s', s'.1 = goalPos [[1, 2], [3, 4]] ∧ Reaches [[1, 2], [3, 4]] 0 3 s' m) ∧
    (∀ s c, Reaches [[1, 2], [3, 4]] 4 10 s c → s.1 = goalPos [[1, 2], [3, 4]] →
      4 ≤ s.2.2 →
      ∃ m, SearchOutcome.noPathFound = SearchOutcome.found m ∧ m ≤ c ∧
        ∃ s', s'.1 = goalPos [[1, 2], [3, 4]] ∧ 4 ≤ s'.2.2 ∧
          Reaches [[1, 2], [3, 4]] 4 10 s' m) :=
  c1_lower_bound [[1, 2], [3, 4]] 100 (SearchOutcome.found 6)
    SearchOutcome.noPathFound (by decide) (by decide)

end Day17

namespace Day14

/-! ### Day 14: `roll_rocks` and `cycle_rocks` invariants (C9)

`roll_rocks` formats the layout so that the tilt direction becomes the end of
each row, rolls every round rock in each row as far right as it can go, and
converts the layout back.  We embed the row roll and the four index
transformations and prove that the cube rocks stay put and the number of round
rocks is conserved. -/

/-- Python's `row.index(c)` with the `ValueError` branch mapped to the row
length: index of the first occurrence of `c`, or `l.length` when absent. -/
def findIdxD (c : Char) : List Char → Nat
  | [] => 0
  | x :: xs => if x = c then 0 else findIdxD c xs + 1

/-- Python's `row.index(c, start)` with `ValueError` mapped to `row.length`. -/
def findFrom (row : List Char) (c : Char) (start : Nat) : Nat :=
  start + findIdxD c (row.drop start)

/-- One iteration of the inner loop of `roll_rocks` at column `col`: a round
rock at `col` is moved to just before the nearest rock to its right (the
searches run on the row as it stands before the two writes, as in the
source). -/
def rollCell (row : List Char) (col : Nat) : List Char :=
  if row.getD col ' ' = 'O' then
    (row.set col '.').set
      (min (findFrom row '#' col) (findFrom row 'O' (col + 1)) - 1) 'O'
  else row

/-- The inner loop `for col in range(len(row) - 1)[::-1]` of `roll_rocks`. -/
def rollRowEast (row : List Char) : List Char :=
  (List.range (row.length - 1)).reverse.foldl rollCell row

/-- The column-selection comprehension shared by the `N`/`S` format and
unformat steps: row `k` of the result is the sequence of entries of the
`idxs[k]`-th column of `g`. -/
def colsOf (g : List (List Char)) (idxs : List Nat) : List (List Char) :=
  idxs.map (fun c => g.map (fun row => row.getD c ' '))

/-- The four direction strings `roll_rocks` is called with. -/
inductive Direction
  | N
  | S
  | W
  | E

/-- The `direction == 'N'` format step of `roll_rocks`. -/
def fmtN (g : List (List Char)) : List (List Char) :=
  colsOf g.reverse (List.range (g.headD []).length)

/-- The `direction == 'N'` unformat step of `roll_rocks`. -/
def unfmtN (M : List (List Char)) : List (List Char) :=
  colsOf M ((List.range (M.headD []).length).reverse)

/-- The `direction == 'S'` format step of `roll_rocks`. -/
def fmtS (g : List (List Char)) : List (List Char) :=
  colsOf g ((List.range (g.headD []).length).reverse)

/-- The `direction == 'S'` unformat step of `roll_rocks`. -/
def unfmtS (M : List (List Char)) : List (List Char) :=
  colsOf M.reverse (List.range (M.headD []).length)

/-- `roll_rocks` from `Day14.py`: format so the roll direction is the end of
each row, roll every row east, and convert back. -/
def roll_rocks (rocks : List (List Char)) (direction : Direction) :
    List (List Char) :=
  match direction with
  | .N => unfmtN ((fmtN rocks).map rollRowEast)
  | .S => unfmtS ((fmtS rocks).map rollRowEast)
  | .W => ((rocks.map List.reverse).map rollRowEast).map List.reverse
  | .E => rocks.map rollRowEast

/-- `cycle_rocks` from `Day14.py`: one tilt in each of N, W, S, E in order. -/
def cycle_rocks (rocks : List (List Char)) : List (List Char) :=
  roll_rocks (roll_rocks (roll_rocks (roll_rocks rocks .N) .W) .S) .E

/-- Number of occurrences of a character in a row (`str.count`). -/
def countCh (c : Char) : List Char → Nat
  | [] => 0
  | x :: xs => (if x = c then 1 else 0) + countCh c xs

/-- The character of layout `h` at row `i`, column `j` (`' '` outside). -/
def cellAt (h : List (List Char)) (i j : Nat) : Char :=
  (h.getD i []).getD j ' '

/-- Total number of round rocks in a layout. -/
def countO (h : List (List Char)) : Nat := (h.map (countCh 'O')).sum

/-- The three C9 invariants relating a produced layout `h` to the original
rectangular layout `g` with `g.length` rows of width `C`: same dimensions,
cube rocks at exactly the same positions, and the same number of round
rocks. -/
def SameSkeleton (g h : List (List Char)) (C : Nat) : Prop :=
  h.length = g.length ∧ (∀ row ∈ h, row.length = C) ∧
    (∀ i < g.length, ∀ j < C, (cellAt h i j = '#' ↔ cellAt g i j = '#')) ∧
    countO h = countO g

theorem getD_of_le {α : Type} (l : List α) (d : α) {i : Nat}
    (h : l.length ≤ i) : l.getD i d = d := by
  rw [List.getD_eq_getElem?_getD, List.getElem?_eq_none h]
  rfl

theorem getD_map_of_lt {α β : Type} (f : α → β) (l : List α) (d : β) (e : α)
    {i : Nat} (h : i < l.length) : (l.map f).getD i d = f (l.getD i e) := by
  rw [List.getD_eq_getElem (l.map f) d (by rw [List.length_map]; exact h),
    List.getElem_map, List.getD_eq_getElem l e h]

theorem getD_reverse' {α : Type} (l : List α) (d : α) {i : Nat}
    (h : i < l.length) : l.reverse.getD i d = l.getD (l.length - 1 - i) d := by
  rw [List.getD_eq_getElem?_getD, List.getElem?_reverse h,
    ← List.getD_eq_getElem?_getD]

theorem getD_range {n k : Nat} (h : k < n) : (List.range n).getD k 0 = k := by
  rw [List.getD_eq_getElem?_getD, List.getElem?_range h]
  rfl

theorem getD_set_self {α : Type} (l : List α) (a d : α) {i : Nat}
    (h : i < l.length) : (l.set i a).getD i d = a := by
  rw [List.getD_eq_getElem?_getD, List.getElem?_set_self h]
  rfl

theorem getD_set_ne {α : Type} (l : List α) (a d : α) {i j : Nat}
    (h : i ≠ j) : (l.set i a).getD j d = l.getD j d := by
  rw [List.getD_eq_getElem?_getD, List.getElem?_set_ne h,
    ← List.getD_eq_getElem?_getD]

theorem getD_drop {α : Type} (l : List α) (d : α) (s k : Nat) :
    (l.drop s).getD k d = l.getD (s + k) d := by
  rw [List.getD_eq_getElem?_getD, List.getElem?_drop,
    ← List.getD_eq_getElem?_getD]

theorem getD_mem {α : Type} (l : List α) (d : α) {i : Nat}
    (h : i < l.length) : l.getD i d ∈ l := by
  rw [List.getD_eq_getElem l d h]
  exact List.getElem_mem h

theorem headD_eq_getD {α : Type} (l : List α) (d : α) :
    l.headD d = l.getD 0 d := by
  cases l <;> rfl

theorem countCh_append (c : Char) (a b : List Char) :
    countCh c (a ++ b) = countCh c a + countCh c b := by
  induction a with
  | nil => simp [countCh]
  | cons x xs ih => simp [countCh, ih, Nat.add_assoc]

theorem countCh_reverse (c : Char) (l : List Char) :
    countCh c l.reverse = countCh c l := by
  induction l with
  | nil => rfl
  | cons x xs ih =>
      rw [List.reverse_cons, countCh_append]
      simp only [countCh]
      omega

theorem countCh_set (l : List Char) (x c : Char) {i : Nat}
    (h : i < l.length) :
    countCh c (l.set i x) + (if l.getD i ' ' = c then 1 else 0)
      = countCh c l + (if x = c then 1 else 0) := by
  induction l generalizing i with
  | nil => simp at h
  | cons a t ih =>
      cases i with
      | zero =>
          simp only [List.set, countCh, List.getD_cons_zero]
          omega
      | succ n =>
          simp only [List.set, countCh, List.getD_cons_succ]
          have := ih (i := n) (by simpa using Nat.lt_of_succ_lt_succ h)
          omega

theorem findIdxD_le (c : Char) (l : List Char) : findIdxD c l ≤ l.length := by
  induction l with
  | nil => simp [findIdxD]
  | cons x xs ih =>
      simp only [findIdxD, List.length_cons]
      split
      · omega
      · omega

theorem findIdxD_spec (c : Char) (l : List Char) {k : Nat}
    (h : k < findIdxD c l) : l.getD k ' ' ≠ c := by
  induction l generalizing k with
  | nil => simp [findIdxD] at h
  | cons x xs ih =>
      simp only [findIdxD] at h
      by_cases hx : x = c
      · rw [if_pos hx] at h
        omega
      · rw [if_neg hx] at h
        cases k with
        | zero => simpa using hx
        | succ n =>
            rw [List.getD_cons_succ]
            exact ih (by omega)

theorem findIdxD_pos (c : Char) (l : List Char) (h0 : 0 < l.length)
    (hh : l.getD 0 ' ' ≠ c) : 0 < findIdxD c l := by
  cases l with
  | nil => simp at h0
  | cons x xs =>
      simp only [findIdxD]
      rw [if_neg (by simpa using hh)]
      omega

theorem findFrom_le (row : List Char) (c : Char) (start : Nat) :
    findFrom row c start ≤ max row.length start := by
  have h2 := findIdxD_le c (row.drop start)
  rw [List.length_drop] at h2
  simp only [findFrom]
  omega

theorem findFrom_ge (row : List Char) (c : Char) (start : Nat) :
    start ≤ findFrom row c start := Nat.le_add_right _ _

theorem findFrom_min (row : List Char) (c : Char) (start : Nat) {k : Nat}
    (h1 : start ≤ k) (h2 : k < findFrom row c start) :
    row.getD k ' ' ≠ c := by
  have h3 : k - start < findIdxD c (row.drop start) := by
    simp only [findFrom] at h2
    omega
  have h4 := findIdxD_spec c (row.drop start) h3
  rw [getD_drop, Nat.add_sub_cancel' h1] at h4
  exact h4

theorem findFrom_gt (row : List Char) (c : Char) {start : Nat}
    (h : row.getD start ' ' ≠ c) (hs : start < row.length) :
    start < findFrom row c start := by
  have h0 : 0 < (row.drop start).length := by
    rw [List.length_drop]
    omega
  have h1 : (row.drop start).getD 0 ' ' ≠ c := by
    rw [getD_drop]
    simpa using h
  have := findIdxD_pos c (row.drop start) h0 h1
  simp only [findFrom]
  omega

theorem getD_lt_length (row : List Char) {col : Nat}
    (h : row.getD col ' ' = 'O') : col < row.length := by
  by_contra hc
  rw [getD_of_le row ' ' (by omega)] at h
  exact absurd h (by decide)

theorem rollCell_length (row : List Char) (col : Nat) :
    (rollCell row col).length = row.length := by
  unfold rollCell
  split
  · rw [List.length_set, List.length_set]
  · rfl

theorem rollCell_sharp (row : List Char) (col p : Nat) :
    ((rollCell row col).getD p ' ' = '#') ↔ (row.getD p ' ' = '#') := by
  by_cases hO : row.getD col ' ' = 'O'
  · simp only [rollCell, if_pos hO]
    have hcol : col < row.length := getD_lt_length row hO
    set nc := findFrom row '#' col with hnc_def
    set nr := findFrom row 'O' (col + 1) with hnr_def
    have hnc : col < nc := findFrom_gt row '#' (by rw [hO]; decide) hcol
    have hncle : nc ≤ max row.length col := findFrom_le _ _ _
    have hnr : col + 1 ≤ nr := findFrom_ge _ _ _
    have hmin1 : min nc nr ≤ nc := min_le_left _ _
    have hmin3 : col + 1 ≤ min nc nr := le_min (by omega) hnr
    set j := min nc nr - 1 with hj_def
    have hjlen : j < row.length := by omega
    have hjsharp : row.getD j ' ' ≠ '#' :=
      findFrom_min row '#' col (by omega) (by omega)
    by_cases hpj : p = j
    · subst hpj
      rw [getD_set_self _ _ _ (by rw [List.length_set]; omega)]
      exact iff_of_false (by decide) hjsharp
    · rw [getD_set_ne _ _ _ (fun h => hpj h.symm)]
      by_cases hpc : p = col
      · subst hpc
        rw [getD_set_self _ _ _ hcol]
        exact iff_of_false (by decide) (by rw [hO]; decide)
      · rw [getD_set_ne _ _ _ (fun h => hpc h.symm)]
  · simp only [rollCell, if_neg hO]

theorem rollCell_countO (row : List Char) (col : Nat) :
    countCh 'O' (rollCell row col) = countCh 'O' row := by
  by_cases hO : row.getD col ' ' = 'O'
  · simp only [rollCell, if_pos hO]
    have hcol : col < row.length := getD_lt_length row hO
    set nc := findFrom row '#' col with hnc_def
    set nr := findFrom row 'O' (col + 1) with hnr_def
    have hnc : col < nc := findFrom_gt row '#' (by rw [hO]; decide) hcol
    have hncle : nc ≤ max row.length col := findFrom_le _ _ _
    have hnr : col + 1 ≤ nr := findFrom_ge _ _ _
    have hmin1 : min nc nr ≤ nc := min_le_left _ _
    have hmin2 : min nc nr ≤ nr := min_le_right _ _
    have hmin3 : col + 1 ≤ min nc nr := le_min (by omega) hnr
    set j := min nc nr - 1 with hj_def
    have hjlen : j < row.length := by omega
    by_cases hjc : j = col
    · rw [hjc, List.set_set]
      have h1 := countCh_set row 'O' 'O' hcol
      rw [hO, if_pos rfl] at h1
      omega
    · have hA := countCh_set row '.' 'O' hcol
      rw [hO, if_pos rfl, if_neg (by decide)] at hA
      have hjO : row.getD j ' ' ≠ 'O' :=
        findFrom_min row 'O' (col + 1) (by omega) (by omega)
      have hB := countCh_set (row.set col '.') 'O' 'O'
        (i := j) (by rw [List.length_set]; omega)
      rw [getD_set_ne _ _ _ (fun h => hjc h.symm), if_neg hjO, if_pos rfl] at hB
      omega
  · simp only [rollCell, if_neg hO]

theorem foldl_rollCell_length (L : List Nat) (row : List Char) :
    (L.foldl rollCell row).length = row.length := by
  induction L generalizing row with
  | nil => rfl
  | cons a t ih => rw [List.foldl_cons, ih, rollCell_length]

theorem foldl_rollCell_sharp (L : List Nat) (row : List Char) (p : Nat) :
    ((L.foldl rollCell row).getD p ' ' = '#') ↔ (row.getD p ' ' = '#') := by
  induction L generalizing row with
  | nil => exact Iff.rfl
  | cons a t ih =>
      rw [List.foldl_cons]
      exact (ih _).trans (rollCell_sharp _ _ _)

theorem foldl_rollCell_countO (L : List Nat) (row : List Char) :
    countCh 'O' (L.foldl rollCell row) = countCh 'O' row := by
  induction L generalizing row with
  | nil => rfl
  | cons a t ih => rw [List.foldl_cons, ih, rollCell_countO]

theorem rollRowEast_length (row : List Char) :
    (rollRowEast row).length = row.length :=
  foldl_rollCell_length _ _

theorem rollRowEast_sharp (row : List Char) (p : Nat) :
    ((rollRowEast row).getD p ' ' = '#') ↔ (row.getD p ' ' = '#') :=
  foldl_rollCell_sharp _ _ _

theorem rollRowEast_countO (row : List Char) :
    countCh 'O' (rollRowEast row) = countCh 'O' row :=
  foldl_rollCell_countO _ _

theorem map_sum_getD (h : List (List Char)) (f : List Char → Nat) :
    (h.map f).sum = ∑ i ∈ Finset.range h.length, f (h.getD i []) := by
  induction h with
  | nil => simp
  | cons a t ih =>
      rw [List.map_cons, List.sum_cons, List.length_cons,
        Finset.sum_range_succ']
      simp only [List.getD_cons_succ, List.getD_cons_zero]
      rw [← ih]
      omega

theorem countCh_eq_sum (c : Char) (l : List Char) :
    countCh c l
      = ∑ j ∈ Finset.range l.length, (if l.getD j ' ' = c then 1 else 0) := by
  induction l with
  | nil => rfl
  | cons x xs ih =>
      rw [List.length_cons, Finset.sum_range_succ']
      simp only [List.getD_cons_succ, List.getD_cons_zero]
      rw [← ih]
      simp only [countCh]
      omega

/-- The double sum of round-rock indicators over an `R` by `C` index box. -/
def cellSum (h : List (List Char)) (R C : Nat) : Nat :=
  ∑ i ∈ Finset.range R, ∑ j ∈ Finset.range C,
    (if cellAt h i j = 'O' then 1 else 0)

theorem countO_eq_cellSum (h : List (List Char)) (C : Nat)
    (hrect : ∀ row ∈ h, row.length = C) :
    countO h = cellSum h h.length C := by
  rw [countO, map_sum_getD, cellSum]
  apply Finset.sum_congr rfl
  intro i hi
  rw [Finset.mem_range] at hi
  have hlen : (h.getD i []).length = C := hrect _ (getD_mem h [] hi)
  rw [countCh_eq_sum, hlen]
  rfl

theorem cellSum_comm_reflect_right (h₁ h₂ : List (List Char)) (A B : Nat)
    (hpt : ∀ t < A, ∀ c < B, cellAt h₁ t c = cellAt h₂ c (A - 1 - t)) :
    cellSum h₁ A B = cellSum h₂ B A := by
  have step1 : cellSum h₁ A B
      = ∑ t ∈ Finset.range A, ∑ c ∈ Finset.range B,
          (if cellAt h₂ c (A - 1 - t) = 'O' then 1 else 0) := by
    apply Finset.sum_congr rfl
    intro t ht
    apply Finset.sum_congr rfl
    intro c hc
    rw [Finset.mem_range] at ht
    rw [Finset.mem_range] at hc
    rw [hpt t ht c hc]
  rw [step1, Finset.sum_comm, cellSum]
  apply Finset.sum_congr rfl
  intro c _
  exact Finset.sum_range_reflect (fun t => if cellAt h₂ c t = 'O' then 1 else 0) A

theorem cellSum_reflect_left_comm (h₁ h₂ : List (List Char)) (A B : Nat)
    (hpt : ∀ t < A, ∀ c < B, cellAt h₁ t c = cellAt h₂ (B - 1 - c) t) :
    cellSum h₁ A B = cellSum h₂ B A := by
  have step1 : cellSum h₁ A B
      = ∑ t ∈ Finset.range A, ∑ c ∈ Finset.range B,
          (if cellAt h₂ (B - 1 - c) t = 'O' then 1 else 0) := by
    apply Finset.sum_congr rfl
    intro t ht
    apply Finset.sum_congr rfl
    intro c hc
    rw [Finset.mem_range] at ht
    rw [Finset.mem_range] at hc
    rw [hpt t ht c hc]
  have step2 : cellSum h₁ A B
      = ∑ t ∈ Finset.range A, ∑ c ∈ Finset.range B,
          (if cellAt h₂ c t = 'O' then 1 else 0) := by
    rw [step1]
    apply Finset.sum_congr rfl
    intro t _
    exact Finset.sum_range_reflect (fun c => if cellAt h₂ c t = 'O' then 1 else 0) B
  rw [step2, Finset.sum_comm, cellSum]

theorem length_colsOf (g : List (List Char)) (idxs : List Nat) :
    (colsOf g idxs).length = idxs.length := by
  simp [colsOf]

theorem mem_colsOf_length (g : List (List Char)) (idxs : List Nat) :
    ∀ row ∈ colsOf g idxs, row.length = g.length := by
  intro row hrow
  simp only [colsOf, List.mem_map] at hrow
  obtain ⟨c, _, rfl⟩ := hrow
  simp

theorem cellAt_colsOf (g : List (List Char)) (idxs : List Nat) {k : Nat}
    (hk : k < idxs.length) (i : Nat) :
    cellAt (colsOf g idxs) k i = cellAt g i (idxs.getD k 0) := by
  simp only [cellAt, colsOf]
  rw [getD_map_of_lt _ idxs [] 0 hk]
  by_cases hi : i < g.length
  · rw [getD_map_of_lt _ g ' ' [] hi]
  · rw [getD_of_le _ ' ' (by rw [List.length_map]; omega),
      getD_of_le g [] (by omega)]
    rfl

theorem cellAt_reverse (g : List (List Char)) {i : Nat} (h : i < g.length)
    (j : Nat) : cellAt g.reverse i j = cellAt g (g.length - 1 - i) j := by
  simp only [cellAt]
  rw [getD_reverse' g [] h]

theorem cellAt_map_roll (M : List (List Char)) {i : Nat} (h : i < M.length)
    (j : Nat) :
    cellAt (M.map rollRowEast) i j = (rollRowEast (M.getD i [])).getD j ' ' := by
  simp only [cellAt]
  rw [getD_map_of_lt _ M [] [] h]

theorem countO_map_roll (M : List (List Char)) :
    countO (M.map rollRowEast) = countO M := by
  simp only [countO, List.map_map]
  have hfun : (countCh 'O' ∘ rollRowEast) = countCh 'O' :=
    funext rollRowEast_countO
  rw [hfun]

theorem mem_map_roll_length (M : List (List Char)) (K : Nat)
    (hM : ∀ row ∈ M, row.length = K) :
    ∀ row ∈ M.map rollRowEast, row.length = K := by
  intro row hrow
  obtain ⟨r, hr, rfl⟩ := List.mem_map.mp hrow
  rw [rollRowEast_length]
  exact hM r hr

theorem roll_rocks_skeleton_E (g : List (List Char)) (C : Nat)
    (hrect : ∀ row ∈ g, row.length = C) :
    SameSkeleton g (roll_rocks g Direction.E) C := by
  simp only [roll_rocks]
  refine ⟨List.length_map _ _, mem_map_roll_length g C hrect, ?_, countO_map_roll g⟩
  intro i hi j _
  rw [cellAt_map_roll g hi, rollRowEast_sharp]
  exact Iff.rfl

theorem roll_rocks_skeleton_W (g : List (List Char)) (C : Nat)
    (hrect : ∀ row ∈ g, row.length = C) :
    SameSkeleton g (roll_rocks g Direction.W) C := by
  simp only [roll_rocks]
  have hlen : ((((g.map List.reverse).map rollRowEast).map List.reverse)).length
      = g.length := by
    simp
  have hrows : ∀ row ∈ ((g.map List.reverse).map rollRowEast).map List.reverse,
      row.length = C := by
    intro row hrow
    obtain ⟨r1, hr1, rfl⟩ := List.mem_map.mp hrow
    obtain ⟨r2, hr2, rfl⟩ := List.mem_map.mp hr1
    obtain ⟨r3, hr3, rfl⟩ := List.mem_map.mp hr2
    rw [List.length_reverse, rollRowEast_length, List.length_reverse]
    exact hrect r3 hr3
  refine ⟨hlen, hrows, ?_, ?_⟩
  · intro i hi j hj
    have hrowlen : (g.getD i []).length = C := hrect _ (getD_mem g [] hi)
    have hXi : ((g.map List.reverse).map rollRowEast).getD i []
        = rollRowEast ((g.getD i []).reverse) := by
      rw [getD_map_of_lt _ _ [] [] (by rw [List.length_map]; exact hi),
        getD_map_of_lt _ _ [] [] hi]
    have hXlen : (rollRowEast ((g.getD i []).reverse)).length = C := by
      rw [rollRowEast_length, List.length_reverse, hrowlen]
    have hcell : cellAt (((g.map List.reverse).map rollRowEast).map List.reverse) i j
        = (rollRowEast ((g.getD i []).reverse)).getD (C - 1 - j) ' ' := by
      simp only [cellAt]
      rw [getD_map_of_lt _ _ [] []
        (by rw [List.length_map, List.length_map]; exact hi), hXi,
        getD_reverse' _ ' ' (by rw [hXlen]; exact hj), hXlen]
    rw [hcell, rollRowEast_sharp,
      getD_reverse' _ ' ' (by rw [hrowlen]; omega), hrowlen,
      show C - 1 - (C - 1 - j) = j from by omega]
    exact Iff.rfl
  · simp only [countO, List.map_map]
    have hfun : (countCh 'O' ∘ (List.reverse ∘ (rollRowEast ∘ List.reverse)))
        = countCh 'O' := by
      funext row
      simp only [Function.comp]
      rw [countCh_reverse, rollRowEast_countO, countCh_reverse]
    rw [hfun]

theorem roll_rocks_skeleton_N (g : List (List Char)) (C : Nat)
    (hrect : ∀ row ∈ g, row.length = C) (hR : 0 < g.length) (hC : 0 < C) :
    SameSkeleton g (roll_rocks g Direction.N) C := by
  have hgC : (g.headD []).length = C := by
    rw [headD_eq_getD]
    exact hrect _ (getD_mem g [] hR)
  have hfmt : fmtN g = colsOf g.reverse (List.range C) := by
    rw [fmtN, hgC]
  have hMlen : (fmtN g).length = C := by
    rw [hfmt, length_colsOf, List.length_range]
  have hMrows : ∀ row ∈ fmtN g, row.length = g.length := by
    rw [hfmt]
    intro row hrow
    have := mem_colsOf_length g.reverse (List.range C) row hrow
    rwa [List.length_reverse] at this
  have hM'len : ((fmtN g).map rollRowEast).length = C := by
    rw [List.length_map, hMlen]
  have hM'rows : ∀ row ∈ (fmtN g).map rollRowEast, row.length = g.length :=
    mem_map_roll_length _ _ hMrows
  have hM'h : (((fmtN g).map rollRowEast).headD []).length = g.length := by
    rw [headD_eq_getD]
    exact hM'rows _ (getD_mem _ [] (by rw [hM'len]; exact hC))
  have hres : roll_rocks g Direction.N
      = colsOf ((fmtN g).map rollRowEast) ((List.range g.length).reverse) := by
    simp only [roll_rocks, unfmtN]
    rw [hM'h]
  have hlen : (roll_rocks g Direction.N).length = g.length := by
    rw [hres, length_colsOf, List.length_reverse, List.length_range]
  have hrows : ∀ row ∈ roll_rocks g Direction.N, row.length = C := by
    intro row hrow
    rw [hres] at hrow
    rw [mem_colsOf_length _ _ row hrow, hM'len]
  have hcell1 : ∀ t < g.length, ∀ c < C,
      cellAt (roll_rocks g Direction.N) t c
        = cellAt ((fmtN g).map rollRowEast) c (g.length - 1 - t) := by
    intro t ht c hc
    have hidx : ((List.range g.length).reverse).getD t 0 = g.length - 1 - t := by
      rw [getD_reverse' _ 0 (by rw [List.length_range]; exact ht),
        List.length_range, getD_range (by omega)]
    rw [hres, cellAt_colsOf _ _
      (by rw [List.length_reverse, List.length_range]; exact ht), hidx]
  have hcell2 : ∀ t < C, ∀ c < g.length,
      cellAt (fmtN g) t c = cellAt g (g.length - 1 - c) t := by
    intro t ht c hc
    rw [hfmt, cellAt_colsOf _ _ (by rw [List.length_range]; exact ht),
      getD_range ht, cellAt_reverse g hc]
  have hcells : ∀ i < g.length, ∀ j < C,
      (cellAt (roll_rocks g Direction.N) i j = '#' ↔ cellAt g i j = '#') := by
    intro i hi j hj
    rw [hcell1 i hi j hj, cellAt_map_roll _ (by rw [hMlen]; exact hj),
      rollRowEast_sharp]
    have h2 := hcell2 j hj (g.length - 1 - i) (by omega)
    rw [show g.length - 1 - (g.length - 1 - i) = i from by omega] at h2
    rw [show ((fmtN g).getD j []).getD (g.length - 1 - i) ' '
        = cellAt (fmtN g) j (g.length - 1 - i) from rfl, h2]
  have hcount : countO (roll_rocks g Direction.N) = countO g := by
    have e1 : countO (roll_rocks g Direction.N)
        = cellSum (roll_rocks g Direction.N) g.length C := by
      have h := countO_eq_cellSum (roll_rocks g Direction.N) C hrows
      rwa [hlen] at h
    have e2 : cellSum (roll_rocks g Direction.N) g.length C
        = cellSum ((fmtN g).map rollRowEast) C g.length :=
      cellSum_comm_reflect_right _ _ _ _ hcell1
    have e3 : countO ((fmtN g).map rollRowEast)
        = cellSum ((fmtN g).map rollRowEast) C g.length := by
      have h := countO_eq_cellSum _ g.length hM'rows
      rwa [hM'len] at h
    have e4 : countO ((fmtN g).map rollRowEast) = countO (fmtN g) :=
      countO_map_roll _
    have e5 : countO (fmtN g) = cellSum (fmtN g) C g.length := by
      have h := countO_eq_cellSum (fmtN g) g.length hMrows
      rwa [hMlen] at h
    have e6 : cellSum (fmtN g) C g.length = cellSum g g.length C :=
      cellSum_reflect_left_comm _ _ _ _ hcell2
    have e7 : countO g = cellSum g g.length C := countO_eq_cellSum g C hrect
    omega
  exact ⟨hlen, hrows, hcells, hcount⟩

theorem roll_rocks_skeleton_S (g : List (List Char)) (C : Nat)
    (hrect : ∀ row ∈ g, row.length = C) (hR : 0 < g.length) (hC : 0 < C) :
    SameSkeleton g (roll_rocks g Direction.S) C := by
  have hgC : (g.headD []).length = C := by
    rw [headD_eq_getD]
    exact hrect _ (getD_mem g [] hR)
  have hfmt : fmtS g = colsOf g ((List.range C).reverse) := by
    rw [fmtS, hgC]
  have hMlen : (fmtS g).length = C := by
    rw [hfmt, length_colsOf, List.length_reverse, List.length_range]
  have hMrows : ∀ row ∈ fmtS g, row.length = g.length := by
    rw [hfmt]
    exact mem_colsOf_length g ((List.range C).reverse)
  have hM'len : ((fmtS g).map rollRowEast).length = C := by
    rw [List.length_map, hMlen]
  have hM'rows : ∀ row ∈ (fmtS g).map rollRowEast, row.length = g.length :=
    mem_map_roll_length _ _ hMrows
  have hM'h : (((fmtS g).map rollRowEast).headD []).length = g.length := by
    rw [headD_eq_getD]
    exact hM'rows _ (getD_mem _ [] (by rw [hM'len]; exact hC))
  have hres : roll_rocks g Direction.S
      = colsOf ((fmtS g).map rollRowEast).reverse (List.range g.length) := by
    simp only [roll_rocks, unfmtS]
    rw [hM'h]
  have hlen : (roll_rocks g Direction.S).length = g.length := by
    rw [hres, length_colsOf, List.length_range]
  have hrows : ∀ row ∈ roll_rocks g Direction.S, row.length = C := by
    intro row hrow
    rw [hres] at hrow
    rw [mem_colsOf_length _ _ row hrow, List.length_reverse, hM'len]
  have hcell1 : ∀ t < g.length, ∀ c < C,
      cellAt (roll_rocks g Direction.S) t c
        = cellAt ((fmtS g).map rollRowEast) (C - 1 - c) t := by
    intro t ht c hc
    rw [hres, cellAt_colsOf _ _ (by rw [List.length_range]; exact ht),
      getD_range ht, cellAt_reverse _ (by rw [hM'len]; exact hc), hM'len]
  have hcell2 : ∀ t < C, ∀ c < g.length,
      cellAt (fmtS g) t c = cellAt g c (C - 1 - t) := by
    intro t ht c hc
    have hidx : ((List.range C).reverse).getD t 0 = C - 1 - t := by
      rw [getD_reverse' _ 0 (by rw [List.length_range]; exact ht),
        List.length_range, getD_range (by omega)]
    rw [hfmt, cellAt_colsOf _ _
      (by rw [List.length_reverse, List.length_range]; exact ht), hidx]
  have hcells : ∀ i < g.length, ∀ j < C,
      (cellAt (roll_rocks g Direction.S) i j = '#' ↔ cellAt g i j = '#') := by
    intro i hi j hj
    rw [hcell1 i hi j hj, cellAt_map_roll _ (by rw [hMlen]; omega),
      rollRowEast_sharp]
    have h2 := hcell2 (C - 1 - j) (by omega) i hi
    rw [show C - 1 - (C - 1 - j) = j from by omega] at h2
    rw [show ((fmtS g).getD (C - 1 - j) []).getD i ' '
        = cellAt (fmtS g) (C - 1 - j) i from rfl, h2]
  have hcount : countO (roll_rocks g Direction.S) = countO g := by
    have e1 : countO (roll_rocks g Direction.S)
        = cellSum (roll_rocks g Direction.S) g.length C := by
      have h := countO_eq_cellSum (roll_rocks g Direction.S) C hrows
      rwa [hlen] at h
    have e2 : cellSum (roll_rocks g Direction.S) g.length C
        = cellSum ((fmtS g).map rollRowEast) C g.length :=
      cellSum_reflect_left_comm _ _ _ _ hcell1
    have e3 : countO ((fmtS g).map rollRowEast)
        = cellSum ((fmtS g).map rollRowEast) C g.length := by
      have h := countO_eq_cellSum _ g.length hM'rows
      rwa [hM'len] at h
    have e4 : countO ((fmtS g).map rollRowEast) = countO (fmtS g) :=
      countO_map_roll _
    have e5 : countO (fmtS g) = cellSum (fmtS g) C g.length := by
      have h := countO_eq_cellSum (fmtS g) g.length hMrows
      rwa [hMlen] at h
    have e6 : cellSum (fmtS g) C g.length = cellSum g g.length C :=
      cellSum_comm_reflect_right _ _ _ _ hcell2
    have e7 : countO g = cellSum g g.length C := countO_eq_cellSum g C hrect
    omega
  exact ⟨hlen, hrows, hcells, hcount⟩

theorem sameSkeleton_trans {g h k : List (List Char)} {C : Nat}
    (h1 : SameSkeleton g h C) (h2 : SameSkeleton h k C) :
    SameSkeleton g k C := by
  obtain ⟨l1, r1, c1, n1⟩ := h1
  obtain ⟨l2, r2, c2, n2⟩ := h2
  refine ⟨l2.trans l1, r2, ?_, n2.trans n1⟩
  intro i hi j hj
  exact (c2 i (by omega) j hj).trans (c1 i hi j hj)

theorem roll_rocks_skeleton (g : List (List Char)) (C : Nat)
    (hrect : ∀ row ∈ g, row.length = C) (hR : 0 < g.length) (hC : 0 < C)
    (d : Direction) : SameSkeleton g (roll_rocks g d) C := by
  cases d with
  | N => exact roll_rocks_skeleton_N g C hrect hR hC
  | S => exact roll_rocks_skeleton_S g C hrect hR hC
  | W => exact roll_rocks_skeleton_W g C hrect
  | E => exact roll_rocks_skeleton_E g C hrect

/-- **C9**: for every rectangular, nonempty rock layout and every tilt
direction, `roll_rocks` returns a layout of the same dimensions in which every
cube-shaped rock `'#'` occupies exactly the same position as before and the
total number of round rocks `'O'` is unchanged; consequently `cycle_rocks`
(one tilt in each of N, W, S, E) preserves the same three invariants. -/
theorem c9_roll_rocks_preserves (g : List (List Char)) (C : Nat)
    (hrect : ∀ row ∈ g, row.length = C) (hR : 0 < g.length) (hC : 0 < C) :
    (∀ d : Direction, SameSkeleton g (roll_rocks g d) C) ∧
      SameSkeleton g (cycle_rocks g) C := by
  refine ⟨roll_rocks_skeleton g C hrect hR hC, ?_⟩
  have s1 := roll_rocks_skeleton g C hrect hR hC Direction.N
  have s2 := roll_rocks_skeleton (roll_rocks g Direction.N) C s1.2.1
    (by rw [s1.1]; exact hR) hC Direction.W
  have t2 := sameSkeleton_trans s1 s2
  have s3 := roll_rocks_skeleton (roll_rocks (roll_rocks g Direction.N) Direction.W)
    C s2.2.1 (by rw [s2.1, s1.1]; exact hR) hC Direction.S
  have t3 := sameSkeleton_trans t2 s3
  have s4 := roll_rocks_skeleton
    (roll_rocks (roll_rocks (roll_rocks g Direction.N) Direction.W) Direction.S)
    C s3.2.1 (by rw [s3.1, s2.1, s1.1]; exact hR) hC Direction.E
  exact sameSkeleton_trans t3 s4

/-- A concrete 2 by 2 layout used to instantiate C9. -/
def c9ex : List (List Char) := [['O', '.'], ['#', '.']]

/-- Witness for C9: the preservation theorem applied to the concrete layout
`c9ex`, with every hypothesis discharged on it. -/
theorem c9_roll_rocks_preserves_witness :
    (∀ row ∈ c9ex, row.length = 2) ∧ 0 < c9ex.length ∧ 0 < 2 ∧
      ((∀ d : Direction, SameSkeleton c9ex (roll_rocks c9ex d) 2) ∧
        SameSkeleton c9ex (cycle_rocks c9ex) 2) := by
  refine ⟨?_, by decide, by decide,
    c9_roll_rocks_preserves c9ex 2 ?_ (by decide) (by decide)⟩
  all_goals
    intro row hrow
    simp only [c9ex, List.mem_cons, List.not_mem_nil, or_false] at hrow
    rcases hrow with rfl | rfl <;> rfl

end Day14
